import Mathlib

/-!
Shallow embedding of the police route finder program
(src/Police_Route_Finder.py) and verification of its specification.

The embedding mirrors the Python classes Vertex, Edge, Graph and
PoliceDispatchSystem.  Python floats for edge weights become rational
numbers; the infinite tentative distances become a value of type
WithTop Rat; Python dicts become insertion-ordered association lists;
the Python set of visited vertices becomes a list queried only for
membership; the heapq priority queue becomes a list from which the
minimum entry (compared lexicographically, exactly as Python compares
the pushed pairs) is removed on each pop.  Raised ValueError exceptions
become the Except monad.  The while loops are written with an explicit
fuel argument; the fuel passed by the entry points dominates the loop
variant, so the loop always reaches its genuine exit condition first
(proved where needed by the measure lemmas below).
-/

deriving instance DecidableEq for Except

namespace PoliceRoute

/-- Association list lookup with first-match semantics, mirroring a read
of a Python dict key. -/
def dictGet {α β : Type} [DecidableEq α] : List (α × β) → α → Option β
  | [], _ => none
  | (k, v) :: t, key => if k = key then some v else dictGet t key

/-- Association list insertion mirroring a Python dict write: an existing
key keeps its position and gets the new value, a new key is appended. -/
def dictInsert {α β : Type} [DecidableEq α] : List (α × β) → α → β → List (α × β)
  | [], key, val => [(key, val)]
  | (k, v) :: t, key, val =>
      if k = key then (key, val) :: t else (k, v) :: dictInsert t key val

/-- Membership test for a Python dict key. -/
def containsKey {α β : Type} [DecidableEq α] (l : List (α × β)) (key : α) : Bool :=
  (dictGet l key).isSome

/-- Weight table of an edge: the dict built by add_edge with the three
traffic-condition keys. -/
structure Weights where
  light : ℚ
  normal : ℚ
  rush_hour : ℚ
deriving DecidableEq

/-- Edge class: the two endpoint ids and the weight table.  The Python
object stores the endpoint Vertex objects; only their ids are ever read
through an Edge outside the visualization code, which is out of scope. -/
structure Edge where
  vertex1 : ℕ
  vertex2 : ℕ
  weights : Weights
deriving DecidableEq

/-- Edge.get_weight: weights.get(traffic_condition, weights[normal]),
so any key other than the three recognized ones falls back to the
normal weight. -/
def Edge.get_weight (e : Edge) (tc : String) : ℚ :=
  if tc = "light" then e.weights.light
  else if tc = "normal" then e.weights.normal
  else if tc = "rush_hour" then e.weights.rush_hour
  else e.weights.normal

/-- Vertex class: id, planar position and the adjacency dict mapping a
neighbor id to the connecting Edge. -/
structure Vertex where
  id : ℕ
  x : ℝ
  y : ℝ
  edges : List (ℕ × Edge)

/-- Graph class: the dict from vertex id to Vertex. -/
structure Graph where
  vertices : List (ℕ × Vertex)

/-- The empty graph produced by the Graph constructor. -/
def Graph.empty : Graph := ⟨[]⟩

/-- Graph.add_vertex: builds a fresh Vertex and writes it into the dict
unconditionally (the Python code performs no duplicate check, so an
existing id is overwritten and its adjacency dict is lost), returning
the new vertex together with the updated graph. -/
def Graph.add_vertex (g : Graph) (id : ℕ) (x y : ℝ) : Vertex × Graph :=
  let vertex : Vertex := ⟨id, x, y, []⟩
  (vertex, ⟨dictInsert g.vertices id vertex⟩)

/-- Adjacency lookup: the edge stored under key v2 in the adjacency dict
of vertex v1, as read by dijkstra and get_path_description. -/
def adjGet (g : Graph) (v1 v2 : ℕ) : Option Edge :=
  match dictGet g.vertices v1 with
  | none => none
  | some vx => dictGet vx.edges v2

/-- In-place update of the value stored under a key of a Python dict,
leaving the dict untouched when the key is absent.  Used to model a
mutation of a Vertex object reached through the vertices dict. -/
def dictModify {α β : Type} [DecidableEq α] : List (α × β) → α → (β → β) → List (α × β)
  | [], _, _ => []
  | (k, v) :: t, key, f =>
      if k = key then (k, f v) :: t else (k, v) :: dictModify t key f

/-- Graph.add_edge: raises unless both endpoints exist, then installs the
edge symmetrically in both adjacency dicts (writing first through the
vertex id1, then through the vertex id2, exactly as the two Python
statements do).  No check whatever is made on the costs; negative
weights are stored as given. -/
def Graph.add_edge (g : Graph) (id1 id2 : ℕ)
    (light_traffic normal_traffic rush_hour : ℚ) : Except String (Edge × Graph) :=
  if containsKey g.vertices id1 ∧ containsKey g.vertices id2 then
    let weights : Weights := ⟨light_traffic, normal_traffic, rush_hour⟩
    let edge : Edge := ⟨id1, id2, weights⟩
    let l1 := dictModify g.vertices id1
      (fun vx => { vx with edges := dictInsert vx.edges id2 edge })
    let l2 := dictModify l1 id2
      (fun vx => { vx with edges := dictInsert vx.edges id1 edge })
    Except.ok (edge, ⟨l2⟩)
  else Except.error ("Both vertices must exist in the graph")

/-- Adjacency dict of a vertex id, as iterated by the relaxation loop;
empty when the id is absent (such a read never happens in runs of the
Python program, whose queue only ever holds existing vertex ids). -/
def adjList (g : Graph) (v : ℕ) : List (ℕ × Edge) :=
  match dictGet g.vertices v with
  | some vx => vx.edges
  | none => []

/-- Order in which heapq hands out the pushed (distance, vertex) pairs:
lexicographic comparison, distance first, vertex id as tie break. -/
def pairLe (a b : ℚ × ℕ) : Prop :=
  a.1 < b.1 ∨ (a.1 = b.1 ∧ a.2 ≤ b.2)

instance : DecidableRel pairLe := fun _ _ => by
  unfold pairLe; infer_instance

/-- Least entry of a nonempty pool of queue entries. -/
def findMin : (ℚ × ℕ) → List (ℚ × ℕ) → (ℚ × ℕ)
  | m, [] => m
  | m, x :: t => if pairLe m x then findMin m t else findMin x t

/-- Model of heappop: remove and return the least entry.  A binary heap
returns exactly this value, and equal pairs are indistinguishable, so
which copy is removed does not matter. -/
def popMin (l : List (ℚ × ℕ)) : Option ((ℚ × ℕ) × List (ℚ × ℕ)) :=
  match l with
  | [] => none
  | x :: t => let m := findMin x t; some (m, (x :: t).erase m)

/-- Mutable state of the dijkstra method: tentative distances,
predecessors, the priority queue and the visited set. -/
structure DState where
  dist : ℕ → WithTop ℚ
  pred : ℕ → Option ℕ
  pq : List (ℚ × ℕ)
  visited : List ℕ

/-- Body of the for loop over the neighbors of the current vertex:
skip visited neighbors, relax the rest, recording distance, predecessor
and a queue push whenever a strictly shorter total is found. -/
def relaxList (tc : String) (current_id : ℕ) (current_distance : ℚ) :
    List (ℕ × Edge) → DState → DState
  | [], st => st
  | (neighbor_id, edge) :: rest, st =>
      if neighbor_id ∈ st.visited then
        relaxList tc current_id current_distance rest st
      else
        let weight := edge.get_weight tc
        let distance := current_distance + weight
        if (distance : WithTop ℚ) < st.dist neighbor_id then
          relaxList tc current_id current_distance rest
            { st with
              dist := fun v => if v = neighbor_id then (distance : WithTop ℚ) else st.dist v,
              pred := fun v => if v = neighbor_id then some current_id else st.pred v,
              pq := (distance, neighbor_id) :: st.pq }
        else
          relaxList tc current_id current_distance rest st

/-- Main while loop of dijkstra, with the early break once the target
is popped (the break fires before the stale-entry check, exactly as in
the source).  The fuel argument only bounds the iteration count; the
entry point passes enough fuel for the loop to reach its genuine exit. -/
def loopB (g : Graph) (tc : String) (end_id : ℕ) : ℕ → DState → DState
  | 0, st => st
  | fuel + 1, st =>
      match popMin st.pq with
      | none => st
      | some ((current_distance, current_id), rest) =>
          if current_id = end_id then { st with pq := rest }
          else if current_id ∈ st.visited then
            loopB g tc end_id fuel { st with pq := rest }
          else
            loopB g tc end_id fuel
              (relaxList tc current_id current_distance (adjList g current_id)
                { st with pq := rest, visited := current_id :: st.visited })

/-- Modelled from the spec: the loop variant that never breaks early and
runs until the frontier empties.  It differs from loopB only by the
absence of the target test. -/
def loopF (g : Graph) (tc : String) : ℕ → DState → DState
  | 0, st => st
  | fuel + 1, st =>
      match popMin st.pq with
      | none => st
      | some ((current_distance, current_id), rest) =>
          if current_id ∈ st.visited then
            loopF g tc fuel { st with pq := rest }
          else
            loopF g tc fuel
              (relaxList tc current_id current_distance (adjList g current_id)
                { st with pq := rest, visited := current_id :: st.visited })

/-- Path reconstruction walk: follow predecessor links, collecting the
ids in reverse order; the caller reverses the result.  The fuel bounds
the number of followed links and is always at least the length of the
predecessor chain at the call sites. -/
def walkAux (pred : ℕ → Option ℕ) : ℕ → ℕ → List ℕ
  | 0, current_id => [current_id]
  | fuel + 1, current_id =>
      current_id ::
        (match pred current_id with
         | none => []
         | some p => walkAux pred fuel p)

/-- Fuel sufficient for the main loop: one initial entry plus one push
per adjacency slot is an upper bound on the number of queue entries ever
created, hence on the number of iterations. -/
def loopFuel (g : Graph) : ℕ :=
  (g.vertices.map (fun p => p.2.edges.length + 1)).sum + 1

/-- Initial loop state of dijkstra for a given start vertex. -/
def initState (start_id : ℕ) : DState :=
  { dist := fun v => if v = start_id then (0 : WithTop ℚ) else ⊤,
    pred := fun _ => none,
    pq := [(0, start_id)],
    visited := [] }

/-- Graph.dijkstra: the shortest path query.  Checks both endpoints,
runs the relaxation loop with early break, then reconstructs the path
from the predecessor links and returns (total cost, path). -/
def Graph.dijkstra (g : Graph) (start_id end_id : ℕ) (tc : String) :
    Except String (WithTop ℚ × List ℕ) :=
  if containsKey g.vertices start_id ∧ containsKey g.vertices end_id then
    let fin := loopB g tc end_id (loopFuel g) (initState start_id)
    Except.ok (fin.dist end_id, (walkAux fin.pred g.vertices.length end_id).reverse)
  else Except.error ("Both start and end vertices must exist in the graph")

/-- Modelled from the spec: the variant of shortestPath that runs the
loop until the frontier is empty instead of breaking when the target is
extracted.  Everything else is identical to Graph.dijkstra. -/
def Graph.dijkstraFull (g : Graph) (start_id end_id : ℕ) (tc : String) :
    Except String (WithTop ℚ × List ℕ) :=
  if containsKey g.vertices start_id ∧ containsKey g.vertices end_id then
    let fin := loopF g tc (loopFuel g) (initState start_id)
    Except.ok (fin.dist end_id, (walkAux fin.pred g.vertices.length end_id).reverse)
  else Except.error ("Both start and end vertices must exist in the graph")

/-- Real arctangent with quadrant correction, the mathematical function
computed by math.atan2 (argument order: y first, then x). -/
noncomputable def atan2 (y x : ℝ) : ℝ :=
  if 0 < x then Real.arctan (y / x)
  else if x < 0 then
    (if 0 ≤ y then Real.arctan (y / x) + Real.pi else Real.arctan (y / x) - Real.pi)
  else
    (if 0 < y then Real.pi / 2 else if y < 0 then -(Real.pi / 2) else 0)

/-- Radian to degree conversion performed by math.degrees. -/
noncomputable def degrees (r : ℝ) : ℝ := r * 180 / Real.pi

/-- The helper method called _get_direction in the source (the receiver
is unused there): quantize a displacement vector into one of the eight
compass direction strings by the chain of comparisons on the degree
angle of atan2(dy, dx). -/
noncomputable def get_direction (dx dy : ℝ) : String :=
  let angle := degrees (atan2 dy dx)
  if -22.5 ≤ angle ∧ angle ≤ 22.5 then "east"
  else if 22.5 < angle ∧ angle ≤ 67.5 then "northeast"
  else if 67.5 < angle ∧ angle ≤ 112.5 then "north"
  else if 112.5 < angle ∧ angle ≤ 157.5 then "northwest"
  else if 157.5 < angle ∨ angle ≤ -157.5 then "west"
  else if -157.5 < angle ∧ angle ≤ -112.5 then "southwest"
  else if -112.5 < angle ∧ angle ≤ -67.5 then "south"
  else "southeast"

/-- One line of the route narration. -/
def descLine (current_id : ℕ) (direction : String) (next_id : ℕ) (time : ℚ) : String :=
  "From vertex " ++ toString current_id ++ " go " ++ direction ++
    " to vertex " ++ toString next_id ++ " (" ++ toString time ++ " minutes)"

/-- Body of the for loop of get_path_description: for each consecutive
pair look up both vertices and the connecting edge (a missing key is the
KeyError the Python loop would raise), add the step line and accumulate
the step time. -/
noncomputable def descLoop (g : Graph) (tc : String) :
    List ℕ → Except String (List String × ℚ)
  | current_id :: next_id :: rest =>
      match dictGet g.vertices current_id, dictGet g.vertices next_id with
      | some current_vertex, some next_vertex =>
          (match dictGet current_vertex.edges next_id with
           | some edge =>
               let time := edge.get_weight tc
               let dx := next_vertex.x - current_vertex.x
               let dy := next_vertex.y - current_vertex.y
               let direction := get_direction dx dy
               (match descLoop g tc (next_id :: rest) with
                | Except.ok (lines, total) =>
                    Except.ok (descLine current_id direction next_id time :: lines,
                      time + total)
                | Except.error e => Except.error e)
           | none => Except.error ("KeyError"))
      | _, _ => Except.error ("KeyError")
  | _ => Except.ok ([], 0)

/-- Graph.get_path_description: the sentinel string for a short path,
otherwise one line per step followed by the total time line. -/
noncomputable def Graph.get_path_description (g : Graph) (path : List ℕ) (tc : String) :
    Except String String :=
  if path = [] ∨ path.length < 2 then Except.ok ("Invalid path")
  else
    match descLoop g tc path with
    | Except.ok (lines, total_time) =>
        Except.ok (String.intercalate "\n"
          (lines ++ ["\nTotal time: " ++ toString total_time ++ " minutes"]))
    | Except.error e => Except.error e

/-- PoliceDispatchSystem: the graph together with the cop dict mapping a
cop id to its current vertex id. -/
structure PoliceDispatchSystem where
  graph : Graph
  cops : List (String × ℕ)

/-- PoliceDispatchSystem.add_cop: reject an unknown vertex, otherwise
insert or overwrite the assignment. -/
def PoliceDispatchSystem.add_cop (sys : PoliceDispatchSystem)
    (cop_id : String) (vertex_id : ℕ) : Except String PoliceDispatchSystem :=
  if containsKey sys.graph.vertices vertex_id then
    Except.ok { sys with cops := dictInsert sys.cops cop_id vertex_id }
  else Except.error ("Invalid vertex ID")

/-- Body of the for loop of find_nearest_cop: run dijkstra from each cop
location and keep the strictly best (time, cop, path) seen so far, so
the first cop attaining the minimum in iteration order wins. -/
def findAux (g : Graph) (crime_location : ℕ) (tc : String) :
    List (String × ℕ) → Option String × WithTop ℚ × Option (List ℕ) →
    Except String (Option String × WithTop ℚ × Option (List ℕ))
  | [], acc => Except.ok acc
  | (cop_id, cop_location) :: rest, (nearest_cop, shortest_time, best_path) =>
      match g.dijkstra cop_location crime_location tc with
      | Except.error e => Except.error e
      | Except.ok (time, path) =>
          if time < shortest_time then
            findAux g crime_location tc rest (some cop_id, time, some path)
          else
            findAux g crime_location tc rest (nearest_cop, shortest_time, best_path)

/-- PoliceDispatchSystem.find_nearest_cop: the None triple for an empty
directory, otherwise the loop starting from (None, infinity, None). -/
def PoliceDispatchSystem.find_nearest_cop (sys : PoliceDispatchSystem)
    (crime_location : ℕ) (tc : String) :
    Except String (Option String × Option (WithTop ℚ) × Option (List ℕ)) :=
  if sys.cops = [] then Except.ok (none, none, none)
  else
    match findAux sys.graph crime_location tc sys.cops (none, ⊤, none) with
    | Except.ok (nearest_cop, shortest_time, best_path) =>
        Except.ok (nearest_cop, some shortest_time, best_path)
    | Except.error e => Except.error e

/-- State-threaded form of the dijkstra method: the computation reads the
vertices dict and writes only the loop-local state, so the receiver it
hands back is the one it was called on. -/
def Graph.dijkstraS (g : Graph) (start_id end_id : ℕ) (tc : String) :
    Except String (WithTop ℚ × List ℕ) × Graph :=
  (g.dijkstra start_id end_id tc, g)

/-- State-threaded form of get_path_description; the method only reads
the vertices dict. -/
noncomputable def Graph.get_path_descriptionS (g : Graph) (path : List ℕ) (tc : String) :
    Except String String × Graph :=
  (g.get_path_description path tc, g)

/-- State-threaded form of find_nearest_cop; the method reads the cop
dict and the graph and writes only its loop-local best candidate. -/
def PoliceDispatchSystem.find_nearest_copS (sys : PoliceDispatchSystem)
    (crime_location : ℕ) (tc : String) :
    Except String (Option String × Option (WithTop ℚ) × Option (List ℕ)) ×
      PoliceDispatchSystem :=
  (sys.find_nearest_cop crime_location tc, sys)

/-!
Specification-side notions: valid paths and their summed cost, the
well-formedness of a graph value, the nonnegativity of its weights under
a condition, and the sector map written exactly as the specification
words it.  These are the vocabulary in which the claims are stated and
are kept separate from the embedded program above.
-/

/-- Valid path in the graph from a to b: the singleton path, or a valid
path extended along an edge present in the adjacency of its endpoint.
This is the notion of valid enumerable path the specification quantifies
over. -/
inductive Walks (g : Graph) : ℕ → List ℕ → ℕ → Prop
  | single (a : ℕ) : Walks g a [a] a
  | snoc {a : ℕ} {p : List ℕ} {b c : ℕ} :
      Walks g a p b → (adjGet g b c).isSome = true → Walks g a (p ++ [c]) c

/-- Cost of one step of a path under a condition, looked up exactly the
way the program reads an edge (through the adjacency of the first
vertex); zero for a missing edge, a case that never occurs on a valid
path. -/
def stepWeight (g : Graph) (tc : String) (a b : ℕ) : ℚ :=
  match adjGet g a b with
  | some e => e.get_weight tc
  | none => 0

/-- Independently recomputed cost of a path: the sum of its per-condition
edge costs over consecutive pairs. -/
def costList (g : Graph) (tc : String) : List ℕ → ℚ
  | a :: b :: rest => stepWeight g tc a b + costList g tc (b :: rest)
  | _ => 0

/-- Well-formed graph value: the key lists are duplicate free (as the
key set of a Python dict always is) and every adjacency key is a key of
the vertices dict.  Every graph reachable through the construction API
satisfies this; it rules out only junk structure values that no run of
the Python program can produce. -/
def WFgraph (g : Graph) : Prop :=
  (g.vertices.map Prod.fst).Nodup ∧
  ∀ p ∈ g.vertices, (p.2.edges.map Prod.fst).Nodup ∧
    ∀ q ∈ p.2.edges, containsKey g.vertices q.1 = true

instance : DecidablePred WFgraph := fun g => by
  unfold WFgraph; infer_instance

/-- All edge weights of the graph are nonnegative under the condition. -/
def NonnegWeights (g : Graph) (tc : String) : Prop :=
  ∀ p ∈ g.vertices, ∀ q ∈ p.2.edges, 0 ≤ q.2.get_weight tc

instance (g : Graph) (tc : String) : Decidable (NonnegWeights g tc) := by
  unfold NonnegWeights; infer_instance

/-- Modelled from the spec: the direction sector map as the specification
words it, each sector closed at its midpoint minus 22.5 degree edge and
open at its midpoint plus 22.5 degree edge, wrapping at 180 degrees. -/
noncomputable def specSector (angle : ℝ) : String :=
  if -22.5 ≤ angle ∧ angle < 22.5 then "east"
  else if 22.5 ≤ angle ∧ angle < 67.5 then "northeast"
  else if 67.5 ≤ angle ∧ angle < 112.5 then "north"
  else if 112.5 ≤ angle ∧ angle < 157.5 then "northwest"
  else if 157.5 ≤ angle ∨ angle < -157.5 then "west"
  else if -157.5 ≤ angle ∧ angle < -112.5 then "southwest"
  else if -112.5 ≤ angle ∧ angle < -67.5 then "south"
  else "southeast"

/-- Total cost reported by dijkstra from loc to crime, with an error
collapsed to infinity; convenience accessor used to state the dispatch
claims. -/
def dijkCost (g : Graph) (tc : String) (crime loc : ℕ) : WithTop ℚ :=
  match g.dijkstra loc crime tc with
  | Except.ok (t, _) => t
  | Except.error _ => ⊤

/-- Path reported by dijkstra from loc to crime, empty on error;
convenience accessor used to state the dispatch claims. -/
def dijkPath (g : Graph) (tc : String) (crime loc : ℕ) : List ℕ :=
  match g.dijkstra loc crime tc with
  | Except.ok (_, p) => p
  | Except.error _ => []

/-- Predecessor chain from a vertex: the list of ids the reconstruction
walk visits, in forward order (the chain head is the vertex at which the
links run out, the chain last element is the argument vertex). -/
inductive IsChain (pred : ℕ → Option ℕ) : ℕ → List ℕ → Prop
  | base {v : ℕ} : pred v = none → IsChain pred v [v]
  | step {v u : ℕ} {p : List ℕ} :
      pred v = some u → IsChain pred u p → IsChain pred v (p ++ [v])

/-- Remaining work for the unvisited vertices: one pop plus one push per
adjacency slot for each unvisited key. -/
def unvisitedWeight (g : Graph) (visited : List ℕ) : ℕ :=
  (g.vertices.map (fun p => if p.1 ∈ visited then 0 else p.2.edges.length + 1)).sum

/-- Loop variant of the dijkstra while loop: queue length plus remaining
work.  Every iteration strictly decreases it. -/
def measureOf (g : Graph) (st : DState) : ℕ :=
  st.pq.length + unvisitedWeight g st.visited

/-- Observable outcome of a finished loop state: the distance of the
target and the reconstructed path, exactly the pair dijkstra returns. -/
def extractAt (len endId : ℕ) (st : DState) : WithTop ℚ × List ℕ :=
  (st.dist endId, (walkAux st.pred len endId).reverse)

/-!
Concrete graphs used to instantiate the universally quantified theorems
below and to exhibit counterexamples.  They are built through the same
construction API as the Python session builds its map.
-/

/-- Helper used only to build the concrete examples: extract the graph
from a successful add_edge call (the calls below all succeed). -/
def addEdge! (g : Graph) (id1 id2 : ℕ) (l n r : ℚ) : Graph :=
  match g.add_edge id1 id2 l n r with
  | Except.ok (_, g2) => g2
  | Except.error _ => g

/-- Two isolated vertices 0 and 1: no path connects them. -/
def exTwo : Graph :=
  ((Graph.empty.add_vertex 0 0 0).2.add_vertex 1 1 0).2

/-- Line graph 0 - 1 - 2 with every weight equal to 5. -/
def exLine : Graph :=
  let g := (Graph.empty.add_vertex 0 0 0).2
  let g := (g.add_vertex 1 1 0).2
  let g := (g.add_vertex 2 2 0).2
  let g := addEdge! g 0 1 5 5 5
  addEdge! g 1 2 5 5 5

/-- Star around vertex 3 with spoke costs 7, 3 and 9 from the vertices
0, 1 and 2; vertex 4 is isolated. -/
def exStar : Graph :=
  let g := (Graph.empty.add_vertex 0 0 0).2
  let g := (g.add_vertex 1 1 0).2
  let g := (g.add_vertex 2 2 0).2
  let g := (g.add_vertex 3 3 0).2
  let g := (g.add_vertex 4 4 0).2
  let g := addEdge! g 0 3 7 7 7
  let g := addEdge! g 1 3 3 3 3
  addEdge! g 2 3 9 9 9

/-- Dispatch directory over the star graph with cops at distances 7, 3
and 9 from vertex 3, registered in this order. -/
def exSys : PoliceDispatchSystem :=
  ⟨exStar, [("R1", 0), ("R2", 1), ("R3", 2)]⟩

/-- Dispatch directory over the two isolated vertices with a single cop
at vertex 0: vertex 1 is unreachable for every cop. -/
def exSysStuck : PoliceDispatchSystem :=
  ⟨exTwo, [("R1", 0)]⟩

/-!
Invariants of the dijkstra loop state.  InvW collects the facts that
survive every exit of the loop, the early break included; Inv adds the
queue coverage fact, which the break may give up for the target vertex
itself; InvN collects the facts that additionally need nonnegative
weights.  The invariants are stated for a fixed graph, condition and
start vertex.
-/

/-- Loop facts surviving every iteration and every exit.  In order:
the start distance never exceeds zero; predecessors point into the
visited set; a vertex with a predecessor has a finite distance; visited
vertices have finite distances and existing ids; finite distances only
arise at existing ids; queue entries carry existing ids and never
undershoot the current distance of their vertex; every finite distance
is realized by the predecessor chain, which is a duplicate-free valid
path from the start whose cost is exactly the distance, whose interior
lies in the visited set and whose members are existing ids; and every
edge out of a visited vertex into an unvisited one has been relaxed. -/
structure InvW (g : Graph) (tc : String) (start : ℕ) (st : DState) : Prop where
  start_le : st.dist start ≤ 0
  pred_vis : ∀ v u, st.pred v = some u → u ∈ st.visited
  pred_fin : ∀ v u, st.pred v = some u → st.dist v ≠ ⊤
  vis_fin : ∀ u, u ∈ st.visited → st.dist u ≠ ⊤
  vis_key : ∀ u, u ∈ st.visited → containsKey g.vertices u = true
  dist_key : ∀ v, st.dist v ≠ ⊤ → containsKey g.vertices v = true
  pq_key : ∀ e, e ∈ st.pq → containsKey g.vertices e.2 = true
  pq_ge : ∀ e, e ∈ st.pq → st.dist e.2 ≤ (e.1 : WithTop ℚ)
  reach : ∀ v, st.dist v ≠ ⊤ → ∃ p, IsChain st.pred v p ∧ Walks g start p v ∧
    (costList g tc p : WithTop ℚ) = st.dist v ∧ p.Nodup ∧
    (∀ x ∈ p.dropLast, x ∈ st.visited) ∧ (∀ x ∈ p, containsKey g.vertices x = true)
  relaxed : ∀ u, u ∈ st.visited → ∀ q ∈ adjList g u, q.1 ∉ st.visited →
    st.dist q.1 ≤ st.dist u + (q.2.get_weight tc : WithTop ℚ)

/-- Full loop invariant: the surviving facts plus queue coverage, which
holds at every loop head: an unvisited vertex with a finite distance
owns a queue entry carrying exactly that distance. -/
structure Inv (g : Graph) (tc : String) (start : ℕ) (st : DState)
    extends InvW g tc start st : Prop where
  cover : ∀ v, v ∉ st.visited → st.dist v ≠ ⊤ →
    ∃ d : ℚ, (d, v) ∈ st.pq ∧ (d : WithTop ℚ) = st.dist v

/-- Additional invariant available when all weights are nonnegative
under the queried condition: distances stay nonnegative, and the
distance of a visited vertex undercuts the cost of every valid path
from the start to it. -/
structure InvN (g : Graph) (tc : String) (start : ℕ) (st : DState) : Prop where
  nonneg : ∀ v, (0 : WithTop ℚ) ≤ st.dist v
  vis_opt : ∀ u, u ∈ st.visited → ∀ p, Walks g start p u →
    st.dist u ≤ (costList g tc p : WithTop ℚ)

/-- Invariant holding in the middle of the relaxation of the neighbors
of the vertex u, popped at distance d: the full invariant in which the
relaxation obligation of u itself is waived for the still pending
adjacency entries l.  With l empty this is exactly the full invariant
Inv together with the facts that u is visited at distance d. -/
structure InvMid (g : Graph) (tc : String) (start u : ℕ) (d : ℚ)
    (l : List (ℕ × Edge)) (st : DState) : Prop where
  start_le : st.dist start ≤ 0
  pred_vis : ∀ v w, st.pred v = some w → w ∈ st.visited
  pred_fin : ∀ v w, st.pred v = some w → st.dist v ≠ ⊤
  vis_fin : ∀ w, w ∈ st.visited → st.dist w ≠ ⊤
  vis_key : ∀ w, w ∈ st.visited → containsKey g.vertices w = true
  dist_key : ∀ v, st.dist v ≠ ⊤ → containsKey g.vertices v = true
  pq_key : ∀ e, e ∈ st.pq → containsKey g.vertices e.2 = true
  pq_ge : ∀ e, e ∈ st.pq → st.dist e.2 ≤ (e.1 : WithTop ℚ)
  reach : ∀ v, st.dist v ≠ ⊤ → ∃ p, IsChain st.pred v p ∧ Walks g start p v ∧
    (costList g tc p : WithTop ℚ) = st.dist v ∧ p.Nodup ∧
    (∀ x ∈ p.dropLast, x ∈ st.visited) ∧ (∀ x ∈ p, containsKey g.vertices x = true)
  cover : ∀ v, v ∉ st.visited → st.dist v ≠ ⊤ →
    ∃ dv : ℚ, (dv, v) ∈ st.pq ∧ (dv : WithTop ℚ) = st.dist v
  hu : u ∈ st.visited
  hd : st.dist u = (d : WithTop ℚ)
  relaxedE : ∀ w, w ∈ st.visited → ∀ q ∈ adjList g w, (w = u → q ∉ l) →
    q.1 ∉ st.visited → st.dist q.1 ≤ st.dist w + (q.2.get_weight tc : WithTop ℚ)

/-!
Theorems.  First the elementary facts about the dict model, the queue
model and paths, then the invariant preservation lemmas, the master
lemmas about the two loops, and finally the claim theorems with their
witnesses and counterexamples.
-/

theorem dictGet_mem {α β : Type} [DecidableEq α] {l : List (α × β)} {k : α} {v : β}
    (h : dictGet l k = some v) : (k, v) ∈ l := by
  induction l with
  | nil => simp [dictGet] at h
  | cons hd t ih =>
      obtain ⟨k', v'⟩ := hd
      by_cases hk : k' = k
      · subst hk
        simp [dictGet] at h
        simp [h]
      · simp [dictGet, hk] at h
        exact List.mem_cons_of_mem _ (ih h)

theorem containsKey_exists {α β : Type} [DecidableEq α] {l : List (α × β)} {k : α}
    (h : containsKey l k = true) : ∃ v, dictGet l k = some v := by
  unfold containsKey at h
  cases hg : dictGet l k with
  | none => rw [hg] at h; simp at h
  | some v => exact ⟨v, rfl⟩

theorem containsKey_mem_map_fst {α β : Type} [DecidableEq α] {l : List (α × β)} {k : α}
    (h : containsKey l k = true) : k ∈ l.map Prod.fst := by
  obtain ⟨v, hv⟩ := containsKey_exists h
  exact List.mem_map.mpr ⟨(k, v), dictGet_mem hv, rfl⟩

theorem dictGet_eq_of_mem_nodup {α β : Type} [DecidableEq α] {l : List (α × β)}
    {k : α} {v : β} (hn : (l.map Prod.fst).Nodup) (h : (k, v) ∈ l) :
    dictGet l k = some v := by
  induction l with
  | nil => simp at h
  | cons hd t ih =>
      obtain ⟨k', v'⟩ := hd
      simp only [List.map_cons, List.nodup_cons] at hn
      rcases List.mem_cons.mp h with h1 | h1
      · obtain ⟨hk, hv⟩ := Prod.mk.injEq .. ▸ h1
        simp [dictGet, hk.symm, hv]
      · have hk : k' ≠ k := by
          rintro rfl
          exact hn.1 (List.mem_map.mpr ⟨(k', v), h1, rfl⟩)
        simp [dictGet, hk]
        exact ih hn.2 h1

theorem dictGet_dictInsert_self {α β : Type} [DecidableEq α] (l : List (α × β))
    (k : α) (v : β) : dictGet (dictInsert l k v) k = some v := by
  induction l with
  | nil => simp [dictInsert, dictGet]
  | cons hd t ih =>
      obtain ⟨k', v'⟩ := hd
      by_cases hk : k' = k
      · subst hk
        simp [dictInsert, dictGet]
      · simp [dictInsert, hk, dictGet, ih]

theorem dictGet_dictInsert_ne {α β : Type} [DecidableEq α] (l : List (α × β))
    (k k' : α) (v : β) (h : k ≠ k') :
    dictGet (dictInsert l k v) k' = dictGet l k' := by
  induction l with
  | nil => simp [dictInsert, dictGet, h]
  | cons hd t ih =>
      obtain ⟨k0, v0⟩ := hd
      by_cases hk : k0 = k
      · subst hk
        simp [dictInsert, dictGet, h]
      · simp [dictInsert, hk, dictGet, ih]

theorem adjGet_mem_adjList {g : Graph} {b c : ℕ} {e : Edge}
    (h : adjGet g b c = some e) : (c, e) ∈ adjList g b := by
  unfold adjGet at h
  unfold adjList
  cases hb : dictGet g.vertices b with
  | none => rw [hb] at h; simp at h
  | some vx => rw [hb] at h; exact dictGet_mem h

theorem stepWeight_of_adjGet {g : Graph} {tc : String} {b c : ℕ} {e : Edge}
    (h : adjGet g b c = some e) : stepWeight g tc b c = e.get_weight tc := by
  unfold stepWeight
  rw [h]

theorem adjList_keys {g : Graph} (hwf : WFgraph g) {u : ℕ} :
    ∀ q ∈ adjList g u, containsKey g.vertices q.1 = true := by
  intro q hq
  unfold adjList at hq
  cases hu : dictGet g.vertices u with
  | none => rw [hu] at hq; simp at hq
  | some vx =>
      rw [hu] at hq
      exact (hwf.2 (u, vx) (dictGet_mem hu)).2 q hq

theorem adjList_nodup {g : Graph} (hwf : WFgraph g) (u : ℕ) :
    ((adjList g u).map Prod.fst).Nodup := by
  unfold adjList
  cases hu : dictGet g.vertices u with
  | none => simp
  | some vx => exact (hwf.2 (u, vx) (dictGet_mem hu)).1

theorem adjList_nonneg {g : Graph} {tc : String} (hn : NonnegWeights g tc) {u : ℕ} :
    ∀ q ∈ adjList g u, 0 ≤ q.2.get_weight tc := by
  intro q hq
  unfold adjList at hq
  cases hu : dictGet g.vertices u with
  | none => rw [hu] at hq; simp at hq
  | some vx =>
      rw [hu] at hq
      exact hn (u, vx) (dictGet_mem hu) q hq

theorem mem_adjList_adjGet {g : Graph} {u : ℕ} (hwf : WFgraph g) {q : ℕ × Edge}
    (hq : q ∈ adjList g u) : adjGet g u q.1 = some q.2 := by
  unfold adjList at hq
  unfold adjGet
  cases hu : dictGet g.vertices u with
  | none => rw [hu] at hq; simp at hq
  | some vx =>
      rw [hu] at hq
      exact dictGet_eq_of_mem_nodup (hwf.2 (u, vx) (dictGet_mem hu)).1 hq

theorem pairLe_refl (a : ℚ × ℕ) : pairLe a a := Or.inr ⟨rfl, le_refl _⟩

theorem pairLe_total (a b : ℚ × ℕ) : pairLe a b ∨ pairLe b a := by
  unfold pairLe
  rcases lt_trichotomy a.1 b.1 with h | h | h
  · exact Or.inl (Or.inl h)
  · rcases le_total a.2 b.2 with h2 | h2
    · exact Or.inl (Or.inr ⟨h, h2⟩)
    · exact Or.inr (Or.inr ⟨h.symm, h2⟩)
  · exact Or.inr (Or.inl h)

theorem pairLe_trans {a b c : ℚ × ℕ} (h1 : pairLe a b) (h2 : pairLe b c) :
    pairLe a c := by
  unfold pairLe at *
  rcases h1 with h1 | ⟨h1, h1'⟩ <;> rcases h2 with h2 | ⟨h2, h2'⟩
  · exact Or.inl (h1.trans h2)
  · exact Or.inl (h2 ▸ h1)
  · exact Or.inl (h1 ▸ h2)
  · exact Or.inr ⟨h1.trans h2, h1'.trans h2'⟩

theorem pairLe_fst {a b : ℚ × ℕ} (h : pairLe a b) : a.1 ≤ b.1 := by
  rcases h with h | ⟨h, _⟩
  · exact le_of_lt h
  · exact le_of_eq h

theorem findMin_mem (m : ℚ × ℕ) (l : List (ℚ × ℕ)) : findMin m l ∈ m :: l := by
  induction l generalizing m with
  | nil => simp [findMin]
  | cons x t ih =>
      unfold findMin
      by_cases h : pairLe m x
      · simp only [h, if_pos]
        rcases List.mem_cons.mp (ih m) with h1 | h1
        · simp [h1]
        · simp [List.mem_cons_of_mem, h1]
      · simp only [h, if_neg, not_false_iff]
        rcases List.mem_cons.mp (ih x) with h1 | h1
        · simp [h1]
        · simp [List.mem_cons_of_mem, h1]

theorem findMin_le (m : ℚ × ℕ) (l : List (ℚ × ℕ)) :
    ∀ x ∈ m :: l, pairLe (findMin m l) x := by
  induction l generalizing m with
  | nil =>
      intro x hx
      simp at hx
      subst hx
      exact pairLe_refl _
  | cons y t ih =>
      intro x hx
      unfold findMin
      by_cases h : pairLe m y
      · simp only [h, if_pos]
        rcases List.mem_cons.mp hx with h1 | h1
        · subst h1
          exact ih x x (List.mem_cons_self x t)
        · rcases List.mem_cons.mp h1 with h2 | h2
          · subst h2
            exact pairLe_trans (ih m m (List.mem_cons_self m t)) h
          · exact ih m x (List.mem_cons_of_mem m h2)
      · have hym : pairLe y m := (pairLe_total m y).resolve_left h
        simp only [h, if_neg, not_false_iff]
        rcases List.mem_cons.mp hx with h1 | h1
        · subst h1
          exact pairLe_trans (ih y y (List.mem_cons_self y t)) hym
        · rcases List.mem_cons.mp h1 with h2 | h2
          · subst h2
            exact ih x x (List.mem_cons_self x t)
          · exact ih y x (List.mem_cons_of_mem y h2)

theorem popMin_none {l : List (ℚ × ℕ)} (h : popMin l = none) : l = [] := by
  cases l with
  | nil => rfl
  | cons x t => simp [popMin] at h

theorem popMin_spec {l rest : List (ℚ × ℕ)} {m : ℚ × ℕ}
    (h : popMin l = some (m, rest)) :
    m ∈ l ∧ (∀ x ∈ l, pairLe m x) ∧ rest = l.erase m := by
  cases l with
  | nil => simp [popMin] at h
  | cons x t =>
      simp only [popMin, Option.some.injEq, Prod.mk.injEq] at h
      obtain ⟨hm, hrest⟩ := h
      subst hm
      exact ⟨findMin_mem x t, findMin_le x t, hrest.symm⟩

theorem popMin_rest_subset {l rest : List (ℚ × ℕ)} {m x : ℚ × ℕ}
    (h : popMin l = some (m, rest)) (hx : x ∈ rest) : x ∈ l := by
  obtain ⟨-, -, hr⟩ := popMin_spec h
  exact (hr ▸ hx : x ∈ l.erase m) |> List.mem_of_mem_erase

theorem popMin_rest_mem {l rest : List (ℚ × ℕ)} {m x : ℚ × ℕ}
    (h : popMin l = some (m, rest)) (hx : x ∈ l) (hne : x ≠ m) : x ∈ rest := by
  obtain ⟨-, -, hr⟩ := popMin_spec h
  rw [hr]
  exact (List.mem_erase_of_ne hne).mpr hx

theorem popMin_rest_length {l rest : List (ℚ × ℕ)} {m : ℚ × ℕ}
    (h : popMin l = some (m, rest)) : rest.length + 1 = l.length := by
  obtain ⟨hm, -, hr⟩ := popMin_spec h
  rw [hr, List.length_erase_of_mem hm]
  have : l.length ≠ 0 := by
    intro h0
    rw [List.length_eq_zero] at h0
    subst h0
    simp at hm
  omega

theorem Walks.ne_nil {g : Graph} {a b : ℕ} {p : List ℕ} (h : Walks g a p b) :
    p ≠ [] := by
  cases h with
  | single => simp
  | snoc h1 h2 => simp

theorem Walks.getLast_eq {g : Graph} {a b : ℕ} {p : List ℕ} (h : Walks g a p b) :
    p.getLast? = some b := by
  cases h with
  | single => rfl
  | snoc h1 h2 => simp [List.getLast?_concat]

theorem costList_concat {g : Graph} {tc : String} {p : List ℕ} {b c : ℕ}
    (h : p.getLast? = some b) :
    costList g tc (p ++ [c]) = costList g tc p + stepWeight g tc b c := by
  induction p with
  | nil => simp at h
  | cons a t ih =>
      cases t with
      | nil =>
          simp only [List.getLast?_singleton, Option.some.injEq] at h
          subst h
          simp [costList]
      | cons a2 t2 =>
          rw [List.getLast?_cons_cons] at h
          have := ih h
          simp only [List.cons_append, costList, List.append_eq] at *
          rw [this]
          ring

theorem IsChain.nonnil {pred : ℕ → Option ℕ} {v : ℕ} {p : List ℕ}
    (h : IsChain pred v p) : p ≠ [] := by
  cases h with
  | base => simp
  | step h1 h2 => simp

theorem IsChain.congr {pred pred' : ℕ → Option ℕ} {v : ℕ} {p : List ℕ}
    (h : IsChain pred v p) (hagree : ∀ x ∈ p, pred' x = pred x) :
    IsChain pred' v p := by
  induction h with
  | base hv =>
      exact IsChain.base ((hagree _ (by simp)).trans hv)
  | step hv hc ih =>
      refine IsChain.step ?_ (ih fun x hx => hagree x ?_)
      · exact (hagree _ (by simp)).trans hv
      · simp [hx]

theorem walkAux_of_none {pred : ℕ → Option ℕ} {v : ℕ} (h : pred v = none) :
    ∀ f, walkAux pred f v = [v] := by
  intro f
  cases f with
  | zero => rfl
  | succ f => simp [walkAux, h]

theorem walkAux_chain {pred : ℕ → Option ℕ} {v : ℕ} {p : List ℕ}
    (h : IsChain pred v p) : ∀ f, p.length ≤ f + 1 → walkAux pred f v = p.reverse := by
  induction h with
  | base hv =>
      intro f _
      simp [walkAux_of_none hv]
  | step hv hc ih =>
      rename_i v' u p'
      intro f hf
      have hp' : p' ≠ [] := hc.nonnil
      have hlen : 1 ≤ p'.length := by
        cases p' with
        | nil => exact absurd rfl hp'
        | cons _ _ => simp
      have hlen2 : p'.length + 1 ≤ f + 1 := by
        simpa using hf
      obtain ⟨f', rfl⟩ : ∃ f', f = f' + 1 := by
        cases f with
        | zero => omega
        | succ f' => exact ⟨f', rfl⟩
      have := ih f' (by omega)
      simp [walkAux, hv, this]

theorem nodup_length_le {p l : List ℕ} (hn : p.Nodup) (hs : ∀ x ∈ p, x ∈ l) :
    p.length ≤ l.length :=
  (List.subperm_of_subset hn hs).length_le

theorem IsChain.last {pred : ℕ → Option ℕ} {v : ℕ} {p : List ℕ}
    (h : IsChain pred v p) : p.getLast? = some v := by
  cases h with
  | base => rfl
  | step h1 h2 => simp [List.getLast?_concat]

theorem mem_dropLast_or_last {p : List ℕ} {x v : ℕ} (hx : x ∈ p)
    (hl : p.getLast? = some v) : x ∈ p.dropLast ∨ x = v := by
  have hne : p ≠ [] := by rintro rfl; simp at hl
  have hdecomp := List.dropLast_append_getLast hne
  have hv : p.getLast hne = v := by
    have := List.getLast?_eq_getLast p hne
    rw [hl] at this
    exact (Option.some.injEq .. ▸ this.symm)
  rw [← hdecomp] at hx
  rcases List.mem_append.mp hx with h1 | h1
  · exact Or.inl h1
  · simp only [List.mem_singleton] at h1
    exact Or.inr (h1.trans hv)

theorem relax_visited (tc : String) (u : ℕ) (d : ℚ) :
    ∀ (l : List (ℕ × Edge)) (st : DState),
      (relaxList tc u d l st).visited = st.visited := by
  intro l
  induction l with
  | nil => intro st; rfl
  | cons q l' ih =>
      intro st
      obtain ⟨z, e⟩ := q
      unfold relaxList
      by_cases hz : z ∈ st.visited
      · rw [if_pos hz]; exact ih st
      · rw [if_neg hz]
        by_cases himp : ((d + e.get_weight tc : ℚ) : WithTop ℚ) < st.dist z
        · rw [if_pos himp]; exact ih _
        · rw [if_neg himp]; exact ih st

theorem relax_frozen (tc : String) (u : ℕ) (d : ℚ) :
    ∀ (l : List (ℕ × Edge)) (st : DState) (v : ℕ), v ∈ st.visited →
      (relaxList tc u d l st).dist v = st.dist v ∧
      (relaxList tc u d l st).pred v = st.pred v := by
  intro l
  induction l with
  | nil => intro st v _; exact ⟨rfl, rfl⟩
  | cons q l' ih =>
      intro st v hv
      obtain ⟨z, e⟩ := q
      unfold relaxList
      by_cases hz : z ∈ st.visited
      · rw [if_pos hz]; exact ih st v hv
      · rw [if_neg hz]
        by_cases himp : ((d + e.get_weight tc : ℚ) : WithTop ℚ) < st.dist z
        · rw [if_pos himp]
          have hvz : v ≠ z := fun h => hz (h ▸ hv)
          obtain ⟨h2a, h2b⟩ := ih ({ st with
            dist := fun w => if w = z then ((d + e.get_weight tc : ℚ) : WithTop ℚ) else st.dist w,
            pred := fun w => if w = z then some u else st.pred w,
            pq := (d + e.get_weight tc, z) :: st.pq }) v hv
          rw [h2a, h2b]
          dsimp only
          rw [if_neg hvz, if_neg hvz]
          exact ⟨rfl, rfl⟩
        · rw [if_neg himp]; exact ih st v hv

theorem relax_mono (tc : String) (u : ℕ) (d : ℚ) :
    ∀ (l : List (ℕ × Edge)) (st : DState) (v : ℕ),
      (relaxList tc u d l st).dist v ≤ st.dist v := by
  intro l
  induction l with
  | nil => intro st v; exact le_refl _
  | cons q l' ih =>
      intro st v
      obtain ⟨z, e⟩ := q
      unfold relaxList
      by_cases hz : z ∈ st.visited
      · rw [if_pos hz]; exact ih st v
      · rw [if_neg hz]
        by_cases himp : ((d + e.get_weight tc : ℚ) : WithTop ℚ) < st.dist z
        · rw [if_pos himp]
          refine le_trans (ih _ v) ?_
          by_cases hvz : v = z
          · subst hvz
            simp only [if_pos rfl]
            exact le_of_lt himp
          · simp [hvz]
        · rw [if_neg himp]; exact ih st v

theorem relax_pq_mono (tc : String) (u : ℕ) (d : ℚ) :
    ∀ (l : List (ℕ × Edge)) (st : DState) (e : ℚ × ℕ), e ∈ st.pq →
      e ∈ (relaxList tc u d l st).pq := by
  intro l
  induction l with
  | nil => intro st e he; exact he
  | cons q l' ih =>
      intro st e he
      obtain ⟨z, ed⟩ := q
      unfold relaxList
      by_cases hz : z ∈ st.visited
      · rw [if_pos hz]; exact ih st e he
      · rw [if_neg hz]
        by_cases himp : ((d + ed.get_weight tc : ℚ) : WithTop ℚ) < st.dist z
        · rw [if_pos himp]
          exact ih _ e (List.mem_cons_of_mem _ he)
        · rw [if_neg himp]; exact ih st e he

theorem relax_pq_len (tc : String) (u : ℕ) (d : ℚ) :
    ∀ (l : List (ℕ × Edge)) (st : DState),
      (relaxList tc u d l st).pq.length ≤ st.pq.length + l.length := by
  intro l
  induction l with
  | nil => intro st; exact le_of_eq rfl
  | cons q l' ih =>
      intro st
      obtain ⟨z, e⟩ := q
      unfold relaxList
      by_cases hz : z ∈ st.visited
      · rw [if_pos hz]
        have := ih st
        simp only [List.length_cons]
        omega
      · rw [if_neg hz]
        by_cases himp : ((d + e.get_weight tc : ℚ) : WithTop ℚ) < st.dist z
        · rw [if_pos himp]
          have := ih ({ st with
            dist := fun v => if v = z then ((d + e.get_weight tc : ℚ) : WithTop ℚ) else st.dist v,
            pred := fun v => if v = z then some u else st.pred v,
            pq := (d + e.get_weight tc, z) :: st.pq })
          simp only [List.length_cons] at *
          omega
        · rw [if_neg himp]
          have := ih st
          simp only [List.length_cons]
          omega

theorem relax_pred_cases (tc : String) (u : ℕ) (d : ℚ) :
    ∀ (l : List (ℕ × Edge)) (st : DState) (v : ℕ),
      (relaxList tc u d l st).pred v = st.pred v ∨
        ((relaxList tc u d l st).pred v = some u ∧ v ∉ st.visited) := by
  intro l
  induction l with
  | nil => intro st v; exact Or.inl rfl
  | cons q l' ih =>
      intro st v
      obtain ⟨z, e⟩ := q
      unfold relaxList
      by_cases hz : z ∈ st.visited
      · rw [if_pos hz]; exact ih st v
      · rw [if_neg hz]
        by_cases himp : ((d + e.get_weight tc : ℚ) : WithTop ℚ) < st.dist z
        · rw [if_pos himp]
          rcases ih ({ st with
              dist := fun w => if w = z then ((d + e.get_weight tc : ℚ) : WithTop ℚ) else st.dist w,
              pred := fun w => if w = z then some u else st.pred w,
              pq := (d + e.get_weight tc, z) :: st.pq }) v with h | ⟨h, hv⟩
          · rw [h]
            dsimp only
            by_cases hvz : v = z
            · subst hvz
              exact Or.inr ⟨if_pos rfl, hz⟩
            · rw [if_neg hvz]
              exact Or.inl rfl
          · exact Or.inr ⟨h, hv⟩
        · rw [if_neg himp]; exact ih st v

theorem invMid_tail_vis {g : Graph} {tc : String} {start u z : ℕ} {e : Edge}
    {d : ℚ} {l' : List (ℕ × Edge)} {st : DState} (hz : z ∈ st.visited)
    (hI : InvMid g tc start u d ((z, e) :: l') st) :
    InvMid g tc start u d l' st := by
  refine { hI with relaxedE := ?_ }
  intro w hw q hq hcond hqnv
  refine hI.relaxedE w hw q hq ?_ hqnv
  intro hwu
  rw [List.mem_cons]
  push_neg
  refine ⟨?_, hcond hwu⟩
  intro hqe
  exact hqnv (by rw [hqe]; exact hz)

theorem invMid_tail_noimp {g : Graph} {tc : String} {start u z : ℕ} {e : Edge}
    {d : ℚ} {l' : List (ℕ × Edge)} {st : DState} (_hz : z ∉ st.visited)
    (hnoimp : ¬ ((d + e.get_weight tc : ℚ) : WithTop ℚ) < st.dist z)
    (hI : InvMid g tc start u d ((z, e) :: l') st) :
    InvMid g tc start u d l' st := by
  refine { hI with relaxedE := ?_ }
  intro w hw q hq hcond hqnv
  by_cases hcase : w = u ∧ q = (z, e)
  · obtain ⟨rfl, rfl⟩ := hcase
    rw [hI.hd, ← WithTop.coe_add]
    exact not_lt.mp hnoimp
  · refine hI.relaxedE w hw q hq ?_ hqnv
    intro hwu
    rw [List.mem_cons]
    push_neg
    exact ⟨fun hqe => hcase ⟨hwu, hqe⟩, hcond hwu⟩

theorem invMid_update {g : Graph} {tc : String} {start u z : ℕ} {e : Edge}
    {d : ℚ} {l' : List (ℕ × Edge)} {st : DState}
    (hwf : WFgraph g) (hz : z ∉ st.visited) (he : (z, e) ∈ adjList g u)
    (himp : ((d + e.get_weight tc : ℚ) : WithTop ℚ) < st.dist z)
    (hI : InvMid g tc start u d ((z, e) :: l') st) :
    InvMid g tc start u d l'
      { st with
        dist := fun v => if v = z then ((d + e.get_weight tc : ℚ) : WithTop ℚ) else st.dist v,
        pred := fun v => if v = z then some u else st.pred v,
        pq := (d + e.get_weight tc, z) :: st.pq } := by
  have huz : u ≠ z := fun h => hz (h ▸ hI.hu)
  have hkeyz : containsKey g.vertices z = true := adjList_keys hwf (z, e) he
  constructor
  case start_le =>
      dsimp only
      by_cases hs : start = z
      · rw [if_pos hs]
        have h0 := hI.start_le
        rw [hs] at h0
        exact le_trans (le_of_lt himp) h0
      · rw [if_neg hs]
        exact hI.start_le
  case pred_vis =>
      intro v w hv
      dsimp only at hv
      by_cases hvz : v = z
      · rw [if_pos hvz] at hv
        obtain rfl : u = w := Option.some.inj hv
        exact hI.hu
      · rw [if_neg hvz] at hv
        exact hI.pred_vis v w hv
  case pred_fin =>
      intro v w hv
      dsimp only at hv ⊢
      by_cases hvz : v = z
      · rw [if_pos hvz]
        exact WithTop.coe_ne_top
      · rw [if_neg hvz] at hv ⊢
        exact hI.pred_fin v w hv
  case vis_fin =>
      intro w hw
      dsimp only
      have hwz : w ≠ z := fun h => hz (h ▸ hw)
      rw [if_neg hwz]
      exact hI.vis_fin w hw
  case vis_key => exact hI.vis_key
  case dist_key =>
      intro v hv
      dsimp only at hv
      by_cases hvz : v = z
      · rw [hvz]
        exact hkeyz
      · rw [if_neg hvz] at hv
        exact hI.dist_key v hv
  case pq_key =>
      intro en hen
      dsimp only at hen
      rcases List.mem_cons.mp hen with h1 | h1
      · rw [h1]
        exact hkeyz
      · exact hI.pq_key en h1
  case pq_ge =>
      intro en hen
      dsimp only at hen ⊢
      rcases List.mem_cons.mp hen with h1 | h1
      · subst h1
        dsimp only
        rw [if_pos rfl]
      · by_cases hez : en.2 = z
        · rw [if_pos hez]
          have hold := hI.pq_ge en h1
          rw [hez] at hold
          exact le_trans (le_of_lt himp) hold
        · rw [if_neg hez]
          exact hI.pq_ge en h1
  case reach =>
      intro v hv
      dsimp only at hv ⊢
      by_cases hvz : v = z
      · subst hvz
        have hdu : st.dist u ≠ ⊤ := by
          rw [hI.hd]
          exact WithTop.coe_ne_top
        obtain ⟨pu, hch, hwk, hcost, hnd, hdrop, hkeys⟩ := hI.reach u hdu
        have hlast := hch.last
        have hznp : v ∉ pu := by
          intro hzin
          rcases mem_dropLast_or_last hzin hlast with h1 | h1
          · exact hz (hdrop v h1)
          · exact huz h1.symm
        have hadj : adjGet g u v = some e := mem_adjList_adjGet hwf he
        refine ⟨pu ++ [v], ?_, hwk.snoc (by rw [hadj]; rfl), ?_, ?_, ?_, ?_⟩
        · refine IsChain.step (by rw [if_pos rfl]) ?_
          refine hch.congr fun x hx => ?_
          have hxz : x ≠ v := fun hxv => hznp (hxv ▸ hx)
          exact if_neg hxz
        · rw [costList_concat hlast, stepWeight_of_adjGet hadj]
          have hpu : costList g tc pu = d := by
            have hc := hcost
            rw [hI.hd] at hc
            exact_mod_cast hc
          rw [hpu, if_pos rfl]
        · simp only [List.nodup_append, List.nodup_cons, List.not_mem_nil,
            not_false_iff, List.nodup_nil, and_true, true_and]
          refine ⟨hnd, ?_⟩
          intro x hx hxv
          rw [List.mem_singleton] at hxv
          rw [hxv] at hx
          exact hznp hx
        · intro x hx
          rw [List.dropLast_concat] at hx
          rcases mem_dropLast_or_last hx hlast with h1 | h1
          · exact hdrop x h1
          · rw [h1]
            exact hI.hu
        · intro x hx
          rcases List.mem_append.mp hx with h1 | h1
          · exact hkeys x h1
          · rw [List.mem_singleton] at h1
            rw [h1]
            exact hkeyz
      · rw [if_neg hvz] at hv
        obtain ⟨pv, hch, hwk, hcost, hnd, hdrop, hkeys⟩ := hI.reach v hv
        have hlast := hch.last
        have hznp : z ∉ pv := by
          intro hzin
          rcases mem_dropLast_or_last hzin hlast with h1 | h1
          · exact hz (hdrop z h1)
          · exact hvz h1.symm
        refine ⟨pv, hch.congr fun x hx => ?_, hwk, ?_, hnd, hdrop, hkeys⟩
        · have hxz : x ≠ z := fun hxv => hznp (hxv ▸ hx)
          exact if_neg hxz
        · rw [if_neg hvz]
          exact hcost
  case cover =>
      intro v hnv hv
      dsimp only at hv ⊢
      by_cases hvz : v = z
      · subst hvz
        exact ⟨d + e.get_weight tc, List.mem_cons_self _ _, by rw [if_pos rfl]⟩
      · rw [if_neg hvz] at hv
        obtain ⟨dv, hmem, hdv⟩ := hI.cover v hnv hv
        exact ⟨dv, List.mem_cons_of_mem _ hmem, by rw [if_neg hvz]; exact hdv⟩
  case hu => exact hI.hu
  case hd =>
      dsimp only
      rw [if_neg huz]
      exact hI.hd
  case relaxedE =>
      intro w hw q hq hcond hqnv
      dsimp only at hqnv ⊢
      have hwz : w ≠ z := fun h => hz (h ▸ hw)
      rw [if_neg hwz]
      by_cases hq1z : q.1 = z
      · rw [if_pos hq1z]
        by_cases hcase : w = u ∧ q = (z, e)
        · obtain ⟨rfl, rfl⟩ := hcase
          rw [hI.hd, ← WithTop.coe_add]
        · have hcond' : w = u → q ∉ (z, e) :: l' := by
            intro hwu
            rw [List.mem_cons]
            push_neg
            exact ⟨fun hqe => hcase ⟨hwu, hqe⟩, hcond hwu⟩
          have hold := hI.relaxedE w hw q hq hcond' hqnv
          rw [hq1z] at hold
          exact le_trans (le_of_lt himp) hold
      · rw [if_neg hq1z]
        refine hI.relaxedE w hw q hq ?_ hqnv
        intro hwu
        rw [List.mem_cons]
        push_neg
        exact ⟨fun hqe => hq1z (by rw [hqe]), hcond hwu⟩

theorem relax_invMid {g : Graph} {tc : String} {start u : ℕ} {d : ℚ}
    (hwf : WFgraph g) :
    ∀ (l : List (ℕ × Edge)) (st : DState),
      InvMid g tc start u d l st → (∀ q ∈ l, q ∈ adjList g u) →
      InvMid g tc start u d [] (relaxList tc u d l st) := by
  intro l
  induction l with
  | nil => intro st hI _; exact hI
  | cons q l' ih =>
      intro st hI hsub
      obtain ⟨z, e⟩ := q
      unfold relaxList
      by_cases hz : z ∈ st.visited
      · rw [if_pos hz]
        exact ih st (invMid_tail_vis hz hI)
          (fun q hq => hsub q (List.mem_cons_of_mem _ hq))
      · rw [if_neg hz]
        by_cases himp : ((d + e.get_weight tc : ℚ) : WithTop ℚ) < st.dist z
        · rw [if_pos himp]
          exact ih _
            (invMid_update hwf hz (hsub (z, e) (List.mem_cons_self _ _)) himp hI)
            (fun q hq => hsub q (List.mem_cons_of_mem _ hq))
        · rw [if_neg himp]
          exact ih st (invMid_tail_noimp hz himp hI)
            (fun q hq => hsub q (List.mem_cons_of_mem _ hq))

theorem popped_dist {g : Graph} {tc : String} {start : ℕ} {st : DState}
    {d : ℚ} {u : ℕ} {rest : List (ℚ × ℕ)} (hI : Inv g tc start st)
    (hpop : popMin st.pq = some ((d, u), rest)) (hu : u ∉ st.visited) :
    st.dist u = (d : WithTop ℚ) := by
  obtain ⟨hm, hmin, -⟩ := popMin_spec hpop
  have h1 : st.dist u ≤ (d : WithTop ℚ) := hI.pq_ge (d, u) hm
  have h2 : st.dist u ≠ ⊤ := by
    intro ht
    rw [ht] at h1
    exact WithTop.coe_ne_top (top_le_iff.mp h1)
  obtain ⟨du, hdu_mem, hdu⟩ := hI.cover u hu h2
  have h4 : d ≤ du := pairLe_fst (hmin (du, u) hdu_mem)
  have h5 : du ≤ d := by
    have h6 := h1
    rw [← hdu] at h6
    exact_mod_cast h6
  rw [← hdu, le_antisymm h5 h4]

theorem popped_le_frontier {g : Graph} {tc : String} {start : ℕ} {st : DState}
    {d : ℚ} {u : ℕ} {rest : List (ℚ × ℕ)} (hI : Inv g tc start st)
    (hpop : popMin st.pq = some ((d, u), rest)) :
    ∀ y, y ∉ st.visited → st.dist y ≠ ⊤ → (d : WithTop ℚ) ≤ st.dist y := by
  intro y hy hyt
  obtain ⟨-, hmin, -⟩ := popMin_spec hpop
  obtain ⟨dy, hdy_mem, hdy⟩ := hI.cover y hy hyt
  have : d ≤ dy := pairLe_fst (hmin (dy, y) hdy_mem)
  rw [← hdy]
  exact_mod_cast this

theorem step_invMid {g : Graph} {tc : String} {start : ℕ} {st : DState}
    {d : ℚ} {u : ℕ} {rest : List (ℚ × ℕ)}
    (hI : Inv g tc start st) (hpop : popMin st.pq = some ((d, u), rest))
    (hu : u ∉ st.visited) :
    InvMid g tc start u d (adjList g u)
      { st with pq := rest, visited := u :: st.visited } := by
  obtain ⟨hm, hmin, -⟩ := popMin_spec hpop
  have hdu : st.dist u = (d : WithTop ℚ) := popped_dist hI hpop hu
  constructor
  case start_le => exact hI.start_le
  case pred_vis =>
      intro v w hv
      exact List.mem_cons_of_mem _ (hI.pred_vis v w hv)
  case pred_fin => exact hI.pred_fin
  case vis_fin =>
      intro w hw
      rcases List.mem_cons.mp hw with h1 | h1
      · rw [h1, hdu]
        exact WithTop.coe_ne_top
      · exact hI.vis_fin w h1
  case vis_key =>
      intro w hw
      rcases List.mem_cons.mp hw with h1 | h1
      · rw [h1]
        exact hI.pq_key (d, u) hm
      · exact hI.vis_key w h1
  case dist_key => exact hI.dist_key
  case pq_key =>
      intro en hen
      exact hI.pq_key en (popMin_rest_subset hpop hen)
  case pq_ge =>
      intro en hen
      exact hI.pq_ge en (popMin_rest_subset hpop hen)
  case reach =>
      intro v hv
      obtain ⟨p, hch, hwk, hcost, hnd, hdrop, hkeys⟩ := hI.reach v hv
      exact ⟨p, hch, hwk, hcost, hnd,
        fun x hx => List.mem_cons_of_mem _ (hdrop x hx), hkeys⟩
  case cover =>
      intro v hnv hv
      have hnv' : v ∉ st.visited := fun h => hnv (List.mem_cons_of_mem _ h)
      have hvu : v ≠ u := fun h => hnv (h ▸ List.mem_cons_self u st.visited)
      obtain ⟨dv, hmem, hdv⟩ := hI.cover v hnv' hv
      refine ⟨dv, popMin_rest_mem hpop hmem ?_, hdv⟩
      intro hcontra
      exact hvu (congrArg Prod.snd hcontra)
  case hu => exact List.mem_cons_self u st.visited
  case hd => exact hdu
  case relaxedE =>
      intro w hw q hq hcond hqnv
      rcases List.mem_cons.mp hw with h1 | h1
      · subst h1
        exact absurd hq (hcond rfl)
      · have hqnv' : q.1 ∉ st.visited := fun h => hqnv (List.mem_cons_of_mem _ h)
        exact hI.relaxed w h1 q hq hqnv'

theorem invMid_to_inv {g : Graph} {tc : String} {start u : ℕ} {d : ℚ}
    {st : DState} (hI : InvMid g tc start u d [] st) : Inv g tc start st := by
  refine ⟨⟨hI.start_le, hI.pred_vis, hI.pred_fin, hI.vis_fin, hI.vis_key,
    hI.dist_key, hI.pq_key, hI.pq_ge, hI.reach, ?_⟩, hI.cover⟩
  intro w hw q hq hqnv
  exact hI.relaxedE w hw q hq (fun _ => List.not_mem_nil q) hqnv

theorem inv_drop {g : Graph} {tc : String} {start : ℕ} {st : DState}
    {d : ℚ} {u : ℕ} {rest : List (ℚ × ℕ)} (hI : Inv g tc start st)
    (hpop : popMin st.pq = some ((d, u), rest)) (hu : u ∈ st.visited) :
    Inv g tc start { st with pq := rest } := by
  refine ⟨⟨hI.start_le, hI.pred_vis, hI.pred_fin, hI.vis_fin, hI.vis_key,
    hI.dist_key, ?_, ?_, hI.reach, hI.relaxed⟩, ?_⟩
  · intro en hen
    exact hI.pq_key en (popMin_rest_subset hpop hen)
  · intro en hen
    exact hI.pq_ge en (popMin_rest_subset hpop hen)
  · intro v hnv hv
    have hvu : v ≠ u := fun h => hnv (h ▸ hu)
    obtain ⟨dv, hmem, hdv⟩ := hI.cover v hnv hv
    refine ⟨dv, popMin_rest_mem hpop hmem ?_, hdv⟩
    intro hcontra
    exact hvu (congrArg Prod.snd hcontra)

theorem invW_drop {g : Graph} {tc : String} {start : ℕ} {st : DState}
    {rest : List (ℚ × ℕ)} (hI : InvW g tc start st)
    (hsub : ∀ e ∈ rest, e ∈ st.pq) :
    InvW g tc start { st with pq := rest } := by
  refine ⟨hI.start_le, hI.pred_vis, hI.pred_fin, hI.vis_fin, hI.vis_key,
    hI.dist_key, ?_, ?_, hI.reach, hI.relaxed⟩
  · intro en hen
    exact hI.pq_key en (hsub en hen)
  · intro en hen
    exact hI.pq_ge en (hsub en hen)

theorem loopB_succ (g : Graph) (tc : String) (endId : ℕ) (f : ℕ) (st : DState) :
    loopB g tc endId (f + 1) st =
      match popMin st.pq with
      | none => st
      | some ((current_distance, current_id), rest) =>
          if current_id = endId then { st with pq := rest }
          else if current_id ∈ st.visited then
            loopB g tc endId f { st with pq := rest }
          else
            loopB g tc endId f
              (relaxList tc current_id current_distance (adjList g current_id)
                { st with pq := rest, visited := current_id :: st.visited }) := rfl

theorem loopF_succ (g : Graph) (tc : String) (f : ℕ) (st : DState) :
    loopF g tc (f + 1) st =
      match popMin st.pq with
      | none => st
      | some ((current_distance, current_id), rest) =>
          if current_id ∈ st.visited then
            loopF g tc f { st with pq := rest }
          else
            loopF g tc f
              (relaxList tc current_id current_distance (adjList g current_id)
                { st with pq := rest, visited := current_id :: st.visited }) := rfl

theorem loopB_invW {g : Graph} (tc : String) {start : ℕ} (endId : ℕ) (hwf : WFgraph g) :
    ∀ (fuel : ℕ) (st : DState), Inv g tc start st →
      InvW g tc start (loopB g tc endId fuel st) := by
  intro fuel
  induction fuel with
  | zero => intro st hI; exact hI.toInvW
  | succ f ih =>
      intro st hI
      rw [loopB_succ]
      cases hpop : popMin st.pq with
      | none => exact hI.toInvW
      | some pr =>
          obtain ⟨⟨d, u⟩, rest⟩ := pr
          dsimp only
          by_cases hend : u = endId
          · rw [if_pos hend]
            exact invW_drop hI.toInvW (fun e he => popMin_rest_subset hpop he)
          · rw [if_neg hend]
            by_cases hu : u ∈ st.visited
            · rw [if_pos hu]
              exact ih _ (inv_drop hI hpop hu)
            · rw [if_neg hu]
              exact ih _ (invMid_to_inv
                (relax_invMid hwf _ _ (step_invMid hI hpop hu) (fun q hq => hq)))

theorem inv_init {g : Graph} {tc : String} {start : ℕ}
    (hkey : containsKey g.vertices start = true) :
    Inv g tc start (initState start) := by
  refine ⟨⟨?_, ?_, ?_, ?_, ?_, ?_, ?_, ?_, ?_, ?_⟩, ?_⟩
  · show (if start = start then (0 : WithTop ℚ) else ⊤) ≤ 0
    rw [if_pos rfl]
  · intro v w hv
    simp [initState] at hv
  · intro v w hv
    simp [initState] at hv
  · intro w hw
    simp [initState] at hw
  · intro w hw
    simp [initState] at hw
  · intro v hv
    show containsKey g.vertices v = true
    by_cases hvs : v = start
    · rw [hvs]
      exact hkey
    · exfalso
      apply hv
      show (if v = start then (0 : WithTop ℚ) else ⊤) = ⊤
      rw [if_neg hvs]
  · intro e he
    simp only [initState, List.mem_singleton] at he
    rw [he]
    exact hkey
  · intro e he
    simp only [initState, List.mem_singleton] at he
    rw [he]
    show (if start = start then (0 : WithTop ℚ) else ⊤) ≤ ((0 : ℚ) : WithTop ℚ)
    rw [if_pos rfl]
    simp
  · intro v hv
    have hvs : v = start := by
      by_contra hne
      apply hv
      show (if v = start then (0 : WithTop ℚ) else ⊤) = ⊤
      rw [if_neg hne]
    subst hvs
    refine ⟨[v], IsChain.base rfl, Walks.single v, ?_, by simp, by simp, ?_⟩
    · show ((costList g tc [v] : ℚ) : WithTop ℚ) = (if v = v then (0 : WithTop ℚ) else ⊤)
      rw [if_pos rfl]
      simp [costList]
    · intro x hx
      rw [List.mem_singleton] at hx
      rw [hx]
      exact hkey
  · intro w hw
    simp [initState] at hw
  · intro v hnv hv
    have hvs : v = start := by
      by_contra hne
      apply hv
      show (if v = start then (0 : WithTop ℚ) else ⊤) = ⊤
      rw [if_neg hne]
    subst hvs
    refine ⟨0, by simp [initState], ?_⟩
    show ((0 : ℚ) : WithTop ℚ) = (if v = v then (0 : WithTop ℚ) else ⊤)
    rw [if_pos rfl]
    simp

theorem dijkstra_eq {g : Graph} (tc : String) {a b : ℕ}
    (ha : containsKey g.vertices a = true) (hb : containsKey g.vertices b = true) :
    g.dijkstra a b tc = Except.ok
      ((loopB g tc b (loopFuel g) (initState a)).dist b,
       (walkAux (loopB g tc b (loopFuel g) (initState a)).pred
         g.vertices.length b).reverse) := by
  unfold Graph.dijkstra
  rw [if_pos ⟨ha, hb⟩]

theorem dijkstra_ok {g : Graph} (tc : String) {a b : ℕ} (hwf : WFgraph g)
    (ha : containsKey g.vertices a = true) (hb : containsKey g.vertices b = true) :
    ∃ c path, g.dijkstra a b tc = Except.ok (c, path) ∧
      (c = ⊤ → path = [b]) ∧
      (c ≠ ⊤ → Walks g a path b ∧ (costList g tc path : WithTop ℚ) = c) := by
  have hW := loopB_invW tc b hwf (loopFuel g) (initState a) (inv_init ha)
  refine ⟨(loopB g tc b (loopFuel g) (initState a)).dist b,
    (walkAux (loopB g tc b (loopFuel g) (initState a)).pred g.vertices.length b).reverse,
    dijkstra_eq tc ha hb, ?_, ?_⟩
  · intro hc
    have hpred : (loopB g tc b (loopFuel g) (initState a)).pred b = none := by
      cases hp : (loopB g tc b (loopFuel g) (initState a)).pred b with
      | none => rfl
      | some w => exact absurd hc (hW.pred_fin b w hp)
    rw [walkAux_of_none hpred]
    rfl
  · intro hc
    obtain ⟨p, hch, hwk, hcost, hnd, hdrop, hkeys⟩ := hW.reach b hc
    have hlen : p.length ≤ g.vertices.length := by
      have := nodup_length_le hnd (fun x hx => containsKey_mem_map_fst (hkeys x hx))
      simpa using this
    rw [walkAux_chain hch g.vertices.length (by omega), List.reverse_reverse]
    exact ⟨hwk, hcost⟩

theorem cut_lemma {g : Graph} {tc : String} {start : ℕ} {st : DState}
    (hnn : NonnegWeights g tc) (hsl : st.dist start ≤ 0)
    (hrel : ∀ w, w ∈ st.visited → ∀ q ∈ adjList g w, q.1 ∉ st.visited →
      st.dist q.1 ≤ st.dist w + (q.2.get_weight tc : WithTop ℚ))
    (hvo : ∀ w, w ∈ st.visited → ∀ p, Walks g start p w →
      st.dist w ≤ (costList g tc p : WithTop ℚ)) :
    ∀ (p : List ℕ) (w : ℕ), Walks g start p w → w ∉ st.visited →
      ∃ y, y ∉ st.visited ∧ st.dist y ≤ (costList g tc p : WithTop ℚ) := by
  intro p w hwalk
  induction hwalk with
  | single =>
      intro hnv
      refine ⟨start, hnv, ?_⟩
      show st.dist start ≤ ((costList g tc [start] : ℚ) : WithTop ℚ)
      have h0 : costList g tc [start] = 0 := rfl
      rw [h0]
      exact le_trans hsl (by simp)
  | snoc hw1 hsome ih =>
      rename_i p1 b c
      intro hcnv
      obtain ⟨e, he⟩ := Option.isSome_iff_exists.mp hsome
      have hmem := adjGet_mem_adjList he
      have hw0 : 0 ≤ e.get_weight tc := adjList_nonneg hnn (c, e) hmem
      have hcost : costList g tc (p1 ++ [c]) =
          costList g tc p1 + stepWeight g tc b c := costList_concat hw1.getLast_eq
      rw [hcost, stepWeight_of_adjGet he]
      by_cases hb : b ∈ st.visited
      · refine ⟨c, hcnv, ?_⟩
        have h1 := hvo b hb p1 hw1
        have h2 := hrel b hb (c, e) hmem hcnv
        calc st.dist c ≤ st.dist b + ((e.get_weight tc : ℚ) : WithTop ℚ) := h2
          _ ≤ ((costList g tc p1 : ℚ) : WithTop ℚ) + ((e.get_weight tc : ℚ) : WithTop ℚ) :=
              add_le_add_right h1 _
          _ = (((costList g tc p1 + e.get_weight tc : ℚ)) : WithTop ℚ) :=
              (WithTop.coe_add _ _).symm
      · obtain ⟨y, hy, hyle⟩ := ih hb
        refine ⟨y, hy, le_trans hyle ?_⟩
        exact_mod_cast le_add_of_nonneg_right hw0

theorem relax_invN {g : Graph} {tc : String} {start u : ℕ} {d : ℚ}
    (hnn : NonnegWeights g tc) (hd0 : (0 : ℚ) ≤ d) :
    ∀ (l : List (ℕ × Edge)) (st : DState), (∀ q ∈ l, q ∈ adjList g u) →
      InvN g tc start st → InvN g tc start (relaxList tc u d l st) := by
  intro l
  induction l with
  | nil => intro st _ hN; exact hN
  | cons q l' ih =>
      intro st hsub hN
      obtain ⟨z, e⟩ := q
      unfold relaxList
      by_cases hz : z ∈ st.visited
      · rw [if_pos hz]
        exact ih st (fun q hq => hsub q (List.mem_cons_of_mem _ hq)) hN
      · rw [if_neg hz]
        by_cases himp : ((d + e.get_weight tc : ℚ) : WithTop ℚ) < st.dist z
        · rw [if_pos himp]
          refine ih _ (fun q hq => hsub q (List.mem_cons_of_mem _ hq)) ⟨?_, ?_⟩
          · intro v
            dsimp only
            by_cases hvz : v = z
            · rw [if_pos hvz]
              have hw0 : 0 ≤ e.get_weight tc :=
                adjList_nonneg hnn (z, e) (hsub (z, e) (List.mem_cons_self _ _))
              exact_mod_cast add_nonneg hd0 hw0
            · rw [if_neg hvz]
              exact hN.nonneg v
          · intro w hw p hp
            dsimp only
            have hwz : w ≠ z := fun h => hz (h ▸ hw)
            rw [if_neg hwz]
            exact hN.vis_opt w hw p hp
        · rw [if_neg himp]
          exact ih st (fun q hq => hsub q (List.mem_cons_of_mem _ hq)) hN

theorem step_invN {g : Graph} {tc : String} {start : ℕ} {st : DState}
    {d : ℚ} {u : ℕ} {rest : List (ℚ × ℕ)}
    (hnn : NonnegWeights g tc) (hI : Inv g tc start st) (hN : InvN g tc start st)
    (hpop : popMin st.pq = some ((d, u), rest)) (hu : u ∉ st.visited) :
    InvN g tc start { st with pq := rest, visited := u :: st.visited } := by
  have hdu := popped_dist hI hpop hu
  refine ⟨hN.nonneg, ?_⟩
  intro w hw p hp
  rcases List.mem_cons.mp hw with h1 | h1
  · subst h1
    obtain ⟨y, hy, hyle⟩ :=
      cut_lemma hnn hI.start_le hI.relaxed hN.vis_opt p w hp hu
    have hyt : st.dist y ≠ ⊤ :=
      (lt_of_le_of_lt hyle (WithTop.coe_lt_top _)).ne
    have hd_le := popped_le_frontier hI hpop y hy hyt
    show st.dist w ≤ _
    rw [hdu]
    exact le_trans hd_le hyle
  · exact hN.vis_opt w h1 p hp

theorem sumUW_mono (vis vis' : List ℕ) (hsub : ∀ x ∈ vis, x ∈ vis') :
    ∀ L : List (ℕ × Vertex),
      (L.map fun p => if p.1 ∈ vis' then 0 else p.2.edges.length + 1).sum ≤
      (L.map fun p => if p.1 ∈ vis then 0 else p.2.edges.length + 1).sum := by
  intro L
  induction L with
  | nil => simp
  | cons hd t ih =>
      simp only [List.map_cons, List.sum_cons]
      have hhd : (if hd.1 ∈ vis' then 0 else hd.2.edges.length + 1) ≤
          (if hd.1 ∈ vis then 0 else hd.2.edges.length + 1) := by
        by_cases h1 : hd.1 ∈ vis
        · rw [if_pos h1, if_pos (hsub _ h1)]
        · rw [if_neg h1]
          by_cases h2 : hd.1 ∈ vis'
          · rw [if_pos h2]
            omega
          · rw [if_neg h2]
      omega

theorem sumUW_insert {u : ℕ} {vis : List ℕ} (hu : u ∉ vis) :
    ∀ (L : List (ℕ × Vertex)) (vx : Vertex), dictGet L u = some vx →
      (L.map fun p => if p.1 ∈ u :: vis then 0 else p.2.edges.length + 1).sum +
        (vx.edges.length + 1) ≤
      (L.map fun p => if p.1 ∈ vis then 0 else p.2.edges.length + 1).sum := by
  intro L
  induction L with
  | nil => intro vx hvx; simp [dictGet] at hvx
  | cons hd t ih =>
      intro vx hvx
      obtain ⟨k, v⟩ := hd
      by_cases hk : k = u
      · subst hk
        have hv : v = vx := by simpa [dictGet] using hvx
        subst hv
        simp only [List.map_cons, List.sum_cons]
        rw [if_pos (show (k : ℕ) ∈ k :: vis from List.mem_cons_self k vis), if_neg hu]
        have hmono := sumUW_mono vis (k :: vis)
          (fun x hx => List.mem_cons_of_mem _ hx) t
        omega
      · have hvx' : dictGet t u = some vx := by simpa [dictGet, hk] using hvx
        have := ih vx hvx'
        simp only [List.map_cons, List.sum_cons]
        have hmemiff : (k ∈ u :: vis) ↔ (k ∈ vis) := by
          simp [List.mem_cons, hk]
        by_cases hkv : k ∈ vis
        · rw [if_pos (hmemiff.mpr hkv), if_pos hkv]
          omega
        · rw [if_neg (fun h => hkv (hmemiff.mp h)), if_neg hkv]
          omega

theorem uW_mono {g : Graph} {vis vis' : List ℕ} (hsub : ∀ x ∈ vis, x ∈ vis') :
    unvisitedWeight g vis' ≤ unvisitedWeight g vis :=
  sumUW_mono _ _ hsub g.vertices

theorem uW_insert {g : Graph} {u : ℕ} {vis : List ℕ} (hu : u ∉ vis)
    (hkey : containsKey g.vertices u = true) :
    unvisitedWeight g (u :: vis) + ((adjList g u).length + 1) ≤
      unvisitedWeight g vis := by
  obtain ⟨vx, hvx⟩ := containsKey_exists hkey
  have hadj : adjList g u = vx.edges := by
    unfold adjList
    rw [hvx]
  rw [hadj]
  exact sumUW_insert hu g.vertices vx hvx

theorem adjList_empty_of_no_key {g : Graph} {u : ℕ}
    (hkey : ¬ containsKey g.vertices u = true) : adjList g u = [] := by
  unfold adjList
  cases hvx : dictGet g.vertices u with
  | none => rfl
  | some vx =>
      exfalso
      apply hkey
      unfold containsKey
      rw [hvx]
      rfl

theorem measure_drop {g : Graph} {st : DState} {d : ℚ} {u : ℕ}
    {rest : List (ℚ × ℕ)} (hpop : popMin st.pq = some ((d, u), rest)) :
    measureOf g { st with pq := rest } + 1 = measureOf g st := by
  unfold measureOf
  dsimp only
  have := popMin_rest_length hpop
  omega

theorem measure_step {g : Graph} (tc : String) {st : DState} {d : ℚ} {u : ℕ}
    {rest : List (ℚ × ℕ)} (hpop : popMin st.pq = some ((d, u), rest))
    (hu : u ∉ st.visited) :
    measureOf g (relaxList tc u d (adjList g u)
      { st with pq := rest, visited := u :: st.visited }) < measureOf g st := by
  set st1 : DState := { st with pq := rest, visited := u :: st.visited } with hst1
  have hlen : (relaxList tc u d (adjList g u) st1).pq.length ≤
      rest.length + (adjList g u).length := relax_pq_len tc u d (adjList g u) st1
  have hvis : (relaxList tc u d (adjList g u) st1).visited = u :: st.visited :=
    relax_visited tc u d (adjList g u) st1
  have hrest := popMin_rest_length hpop
  unfold measureOf
  rw [hvis]
  by_cases hkey : containsKey g.vertices u = true
  · have hins := uW_insert hu hkey
    omega
  · have hadj : adjList g u = [] := adjList_empty_of_no_key hkey
    rw [hadj]
    have hb : (relaxList tc u d [] st1).pq.length = rest.length := rfl
    have hmono : unvisitedWeight g (u :: st.visited) ≤ unvisitedWeight g st.visited :=
      uW_mono (fun x hx => List.mem_cons_of_mem _ hx)
    omega

theorem empty_pq_opt {g : Graph} {tc : String} {start endId : ℕ} {st : DState}
    (hnn : NonnegWeights g tc) (hI : Inv g tc start st) (hN : InvN g tc start st)
    (hpq : st.pq = []) :
    ∀ p, Walks g start p endId → st.dist endId ≤ (costList g tc p : WithTop ℚ) := by
  intro p hp
  by_cases hv : endId ∈ st.visited
  · exact hN.vis_opt endId hv p hp
  · obtain ⟨y, hy, hyle⟩ :=
      cut_lemma hnn hI.start_le hI.relaxed hN.vis_opt p endId hp hv
    have hyt : st.dist y ≠ ⊤ :=
      (lt_of_le_of_lt hyle (WithTop.coe_lt_top _)).ne
    obtain ⟨dy, hmem, -⟩ := hI.cover y hy hyt
    rw [hpq] at hmem
    simp at hmem

theorem break_opt {g : Graph} {tc : String} {start endId : ℕ} {st : DState}
    {d : ℚ} {rest : List (ℚ × ℕ)}
    (hnn : NonnegWeights g tc) (hI : Inv g tc start st) (hN : InvN g tc start st)
    (hpop : popMin st.pq = some ((d, endId), rest)) :
    ∀ p, Walks g start p endId → st.dist endId ≤ (costList g tc p : WithTop ℚ) := by
  intro p hp
  by_cases hv : endId ∈ st.visited
  · exact hN.vis_opt endId hv p hp
  · obtain ⟨y, hy, hyle⟩ :=
      cut_lemma hnn hI.start_le hI.relaxed hN.vis_opt p endId hp hv
    have hyt : st.dist y ≠ ⊤ :=
      (lt_of_le_of_lt hyle (WithTop.coe_lt_top _)).ne
    have hd_le := popped_le_frontier hI hpop y hy hyt
    obtain ⟨hm, -, -⟩ := popMin_spec hpop
    have h1 : st.dist endId ≤ (d : WithTop ℚ) := hI.pq_ge (d, endId) hm
    exact le_trans h1 (le_trans hd_le hyle)

theorem loopB_opt {g : Graph} {tc : String} {start endId : ℕ}
    (hwf : WFgraph g) (hnn : NonnegWeights g tc) :
    ∀ (fuel : ℕ) (st : DState), measureOf g st ≤ fuel → Inv g tc start st →
      InvN g tc start st → ∀ p, Walks g start p endId →
      (loopB g tc endId fuel st).dist endId ≤ (costList g tc p : WithTop ℚ) := by
  intro fuel
  induction fuel with
  | zero =>
      intro st hm hI hN p hp
      have hpq : st.pq = [] := by
        unfold measureOf at hm
        rw [← List.length_eq_zero]
        omega
      exact empty_pq_opt hnn hI hN hpq p hp
  | succ f ih =>
      intro st hm hI hN p hp
      rw [loopB_succ]
      cases hpop : popMin st.pq with
      | none => exact empty_pq_opt hnn hI hN (popMin_none hpop) p hp
      | some pr =>
          obtain ⟨⟨d, u⟩, rest⟩ := pr
          dsimp only
          by_cases hend : u = endId
          · rw [if_pos hend]
            subst hend
            exact break_opt hnn hI hN hpop p hp
          · rw [if_neg hend]
            by_cases hu : u ∈ st.visited
            · rw [if_pos hu]
              refine ih _ ?_ (inv_drop hI hpop hu) ⟨hN.nonneg, hN.vis_opt⟩ p hp
              have := measure_drop (g := g) hpop
              omega
            · rw [if_neg hu]
              have hd0 : (0 : ℚ) ≤ d := by
                have h0 := hN.nonneg u
                rw [popped_dist hI hpop hu] at h0
                exact_mod_cast h0
              refine ih _ ?_
                (invMid_to_inv (relax_invMid hwf _ _ (step_invMid hI hpop hu)
                  (fun q hq => hq)))
                (relax_invN hnn hd0 _ _ (fun q hq => hq)
                  (step_invN hnn hI hN hpop hu)) p hp
              have := measure_step (g := g) tc hpop hu
              omega

theorem invN_init {g : Graph} {tc : String} {start : ℕ} :
    InvN g tc start (initState start) := by
  refine ⟨?_, ?_⟩
  · intro v
    show (0 : WithTop ℚ) ≤ (if v = start then (0 : WithTop ℚ) else ⊤)
    by_cases hv : v = start
    · rw [if_pos hv]
    · rw [if_neg hv]
      exact le_top
  · intro w hw
    simp [initState] at hw

theorem measure_init (g : Graph) (a : ℕ) : measureOf g (initState a) ≤ loopFuel g := by
  unfold measureOf initState loopFuel unvisitedWeight
  simp
  omega

/-- C2: for every well-formed graph whose edge costs are nonnegative
under the queried condition, every pair of existing vertices and every
valid path p between them, the total cost returned by dijkstra is at
most the sum of the per-condition edge costs of p: the returned cost is
optimal among all valid paths. -/
theorem dijkstra_cost_optimal {g : Graph} {tc : String} {a b : ℕ} {p : List ℕ}
    {c : WithTop ℚ} {path : List ℕ}
    (hwf : WFgraph g) (hnn : NonnegWeights g tc)
    (ha : containsKey g.vertices a = true) (hb : containsKey g.vertices b = true)
    (hp : Walks g a p b) (hrun : g.dijkstra a b tc = Except.ok (c, path)) :
    c ≤ (costList g tc p : WithTop ℚ) := by
  have heq := dijkstra_eq tc ha hb
  rw [hrun] at heq
  have hc : c = (loopB g tc b (loopFuel g) (initState a)).dist b :=
    congrArg Prod.fst (Except.ok.inj heq)
  rw [hc]
  exact loopB_opt hwf hnn (loopFuel g) (initState a) (measure_init g a)
    (inv_init ha) invN_init p hp

/-- Witness for C2 on the concrete line graph: the hypotheses hold for
the path 0, 1, 2 from vertex 0 to vertex 2, and the conclusion follows
by the theorem. -/
theorem dijkstra_cost_optimal_witness :
    (WFgraph exLine ∧ NonnegWeights exLine "normal" ∧
      containsKey exLine.vertices 0 = true ∧ containsKey exLine.vertices 2 = true ∧
      exLine.dijkstra 0 2 "normal" = Except.ok ((10 : WithTop ℚ), [0, 1, 2])) ∧
    (10 : WithTop ℚ) ≤ (costList exLine "normal" [0, 1, 2] : WithTop ℚ) := by
  have hwalk : Walks exLine 0 [0, 1, 2] 2 := by
    have h1 : Walks exLine 0 [0] 0 := Walks.single 0
    have h2 : Walks exLine 0 ([0] ++ [1]) 1 := h1.snoc (by with_unfolding_all decide)
    have h3 : Walks exLine 0 (([0] ++ [1]) ++ [2]) 2 :=
      h2.snoc (by with_unfolding_all decide)
    exact h3
  have hrun : exLine.dijkstra 0 2 "normal" = Except.ok ((10 : WithTop ℚ), [0, 1, 2]) := by
    with_unfolding_all decide
  refine ⟨⟨by with_unfolding_all decide, by with_unfolding_all decide,
    by with_unfolding_all decide, by with_unfolding_all decide, hrun⟩, ?_⟩
  exact dijkstra_cost_optimal (by with_unfolding_all decide)
    (by with_unfolding_all decide) (by with_unfolding_all decide)
    (by with_unfolding_all decide) hwalk hrun

/-- C3: dijkstra called with source equal to target on an existing
vertex returns total cost zero and the one-element path holding only
that vertex, for every graph and every condition. -/
theorem dijkstra_self {g : Graph} {tc : String} {a : ℕ}
    (ha : containsKey g.vertices a = true) :
    g.dijkstra a a tc = Except.ok ((0 : WithTop ℚ), [a]) := by
  rw [dijkstra_eq tc ha ha]
  obtain ⟨n, hn⟩ := Nat.exists_eq_succ_of_ne_zero
    (show loopFuel g ≠ 0 by unfold loopFuel; omega)
  rw [hn, loopB_succ]
  have hpop : popMin (initState a).pq = some ((0, a), []) := by
    have hfm : findMin ((0 : ℚ), a) [] = ((0 : ℚ), a) := rfl
    show some (findMin ((0 : ℚ), a) [],
        [((0 : ℚ), a)].erase (findMin ((0 : ℚ), a) [])) =
      some (((0 : ℚ), a), [])
    rw [hfm, List.erase_cons_head]
  rw [hpop]
  dsimp only
  rw [if_pos rfl]
  have hpred : ({ initState a with pq := ([] : List (ℚ × ℕ)) }).pred a = none := rfl
  rw [walkAux_of_none hpred]
  have hdist : ({ initState a with pq := ([] : List (ℚ × ℕ)) }).dist a =
      (0 : WithTop ℚ) := by
    show (if a = a then (0 : WithTop ℚ) else ⊤) = 0
    rw [if_pos rfl]
  rw [hdist]
  rfl

/-- Witness for C3 at vertex 0 of the concrete line graph. -/
theorem dijkstra_self_witness :
    containsKey exLine.vertices 0 = true ∧
    exLine.dijkstra 0 0 "normal" = Except.ok ((0 : WithTop ℚ), [0]) :=
  ⟨by with_unfolding_all decide, dijkstra_self (by with_unfolding_all decide)⟩

/-- C1 counterexample: on the two-vertex graph with no edges, dijkstra
from vertex 0 to the unreachable vertex 1 returns infinite cost together
with the one-element path holding the target, which is not the empty
path the claim asserts. -/
theorem dijkstra_unreachable_counterexample :
    exTwo.dijkstra 0 1 "normal" = Except.ok ((⊤ : WithTop ℚ), [1]) ∧
    ([1] : List ℕ) ≠ ([] : List ℕ) := by
  with_unfolding_all decide

/-- C1 as amended: for a well-formed graph and existing vertices a and b
with b unreachable from a, dijkstra returns without raising, with
infinite total cost and the one-element path holding only the target;
the outcome is distinguishable from the source-equals-target case by
its infinite cost, not by path emptiness. -/
theorem dijkstra_unreachable {g : Graph} {tc : String} {a b : ℕ}
    (hwf : WFgraph g) (ha : containsKey g.vertices a = true)
    (hb : containsKey g.vertices b = true)
    (hnr : ∀ p, ¬ Walks g a p b) :
    g.dijkstra a b tc = Except.ok ((⊤ : WithTop ℚ), [b]) := by
  obtain ⟨c, path, hrun, htop, hfin⟩ := dijkstra_ok tc hwf ha hb
  have hc : c = ⊤ := by
    by_contra hne
    obtain ⟨hwk, -⟩ := hfin hne
    exact hnr path hwk
  rw [hrun, hc, htop hc]

theorem exTwo_no_edge_into : ∀ x, adjGet exTwo x 1 = none := by
  have hvert : exTwo.vertices =
      [(0, ⟨0, 0, 0, []⟩), (1, ⟨1, 1, 0, []⟩)] := by
    with_unfolding_all rfl
  intro x
  by_cases h0 : x = 0
  · rw [h0]
    with_unfolding_all decide
  · by_cases h1 : x = 1
    · rw [h1]
      with_unfolding_all decide
    · have hnone : dictGet exTwo.vertices x = none := by
        rw [hvert]
        show (if 0 = x then some (⟨0, 0, 0, []⟩ : Vertex)
          else dictGet [(1, ⟨1, 1, 0, []⟩)] x) = none
        rw [if_neg (fun h => h0 h.symm)]
        show (if 1 = x then some (⟨1, 1, 0, []⟩ : Vertex)
          else dictGet ([] : List (ℕ × Vertex)) x) = none
        rw [if_neg (fun h => h1 h.symm)]
        rfl
      unfold adjGet
      rw [hnone]

theorem exTwo_unreachable : ∀ p, ¬ Walks exTwo 0 p 1 := by
  intro p hw
  cases hw with
  | snoc hw1 hsome =>
      rename_i p1 b
      rw [exTwo_no_edge_into b] at hsome
      simp at hsome

/-- Witness for the amended C1 on the concrete two-vertex graph. -/
theorem dijkstra_unreachable_witness :
    (WFgraph exTwo ∧ containsKey exTwo.vertices 0 = true ∧
      containsKey exTwo.vertices 1 = true) ∧
    exTwo.dijkstra 0 1 "normal" = Except.ok ((⊤ : WithTop ℚ), [1]) := by
  refine ⟨⟨by with_unfolding_all decide, by with_unfolding_all decide,
    by with_unfolding_all decide⟩, ?_⟩
  exact dijkstra_unreachable (by with_unfolding_all decide)
    (by with_unfolding_all decide) (by with_unfolding_all decide)
    exTwo_unreachable

/-- C4 counterexample: on the line graph, vertex 0 already exists and
owns the edge to vertex 1, yet calling add_vertex with id 0 again does
not fail: it replaces the vertex and silently discards its adjacency,
so the graph is changed, contradicting the claimed DuplicateId error
and the claimed absence of change. -/
theorem add_vertex_counterexample :
    adjGet exLine 0 1 ≠ none ∧ adjGet (exLine.add_vertex 0 5 5).2 0 1 = none := by
  with_unfolding_all decide

/-- C4 as amended: add_vertex never fails and performs no duplicate
check: it unconditionally builds a fresh vertex with the given id,
position and empty adjacency, installs it under that id (overwriting
any previously stored vertex and discarding that vertex and its
adjacency), returns it, and leaves the entries under every other id
untouched. -/
theorem add_vertex_spec (g : Graph) (id : ℕ) (x y : ℝ) :
    (g.add_vertex id x y).1 = ⟨id, x, y, []⟩ ∧
    dictGet (g.add_vertex id x y).2.vertices id = some ⟨id, x, y, []⟩ ∧
    ∀ k, k ≠ id → dictGet (g.add_vertex id x y).2.vertices k = dictGet g.vertices k := by
  refine ⟨rfl, ?_, ?_⟩
  · exact dictGet_dictInsert_self g.vertices id ⟨id, x, y, []⟩
  · intro k hk
    exact dictGet_dictInsert_ne g.vertices id k ⟨id, x, y, []⟩ (Ne.symm hk)

/-- Witness for the amended C4 on the line graph: re-adding vertex 0
returns the fresh vertex, stores it, and leaves vertex 1 alone. -/
theorem add_vertex_spec_witness :
    ((1 : ℕ) ≠ 0) ∧
    dictGet (exLine.add_vertex 0 5 5).2.vertices 1 = dictGet exLine.vertices 1 :=
  ⟨by decide, (add_vertex_spec exLine 0 5 5).2.2 1 (by decide)⟩

/-- C5 counterexample: add_edge called with all three costs equal to
minus five succeeds and stores the negative weights, so negative costs
are not rejected at construction time by an InvalidCost error. -/
theorem add_edge_negative_counterexample :
    (exTwo.add_edge 0 1 (-5) (-5) (-5)).toOption.map (fun pr => adjGet pr.2 0 1) =
      some (some ⟨0, 1, ⟨-5, -5, -5⟩⟩) := by
  with_unfolding_all decide

/-- C5 as amended: add_edge validates only the existence of the two
endpoint ids.  When both exist it succeeds for every triple of costs,
negative ones included, storing them verbatim; when either is missing
it fails with the unknown-vertex error.  No cost check of any kind is
performed, at construction time or later. -/
theorem add_edge_spec (g : Graph) (a b : ℕ) (l n r : ℚ) :
    (containsKey g.vertices a = true ∧ containsKey g.vertices b = true →
      ∃ g2, g.add_edge a b l n r = Except.ok (⟨a, b, ⟨l, n, r⟩⟩, g2)) ∧
    (¬ (containsKey g.vertices a = true ∧ containsKey g.vertices b = true) →
      g.add_edge a b l n r = Except.error ("Both vertices must exist in the graph")) := by
  constructor
  · intro h
    unfold Graph.add_edge
    rw [if_pos h]
    exact ⟨_, rfl⟩
  · intro h
    unfold Graph.add_edge
    rw [if_neg h]

/-- Witness for the amended C5: with both vertices present, the call
with negative costs succeeds. -/
theorem add_edge_spec_witness :
    (containsKey exTwo.vertices 0 = true ∧ containsKey exTwo.vertices 1 = true) ∧
    ∃ g2, exTwo.add_edge 0 1 (-5) (-5) (-5) = Except.ok (⟨0, 1, ⟨-5, -5, -5⟩⟩, g2) :=
  ⟨⟨by with_unfolding_all decide, by with_unfolding_all decide⟩,
    (add_edge_spec exTwo 0 1 (-5) (-5) (-5)).1
      ⟨by with_unfolding_all decide, by with_unfolding_all decide⟩⟩

/-- C8: find_nearest_cop on a directory holding zero assignments
returns the NoResourcesAvailable sentinel triple (None, None, None)
once, as its immediate result, for every target and condition; every
call on a nonempty directory instead carries a numeric (possibly
infinite) time in the second component, so the empty-directory sentinel
is distinct from the Unreachable outcome (None, infinity, None)
produced when resources exist but none reaches the target. -/
theorem find_nearest_cop_empty (sys sys2 : PoliceDispatchSystem)
    (t t2 : ℕ) (tc tc2 : String) :
    (sys.cops = [] → sys.find_nearest_cop t tc = Except.ok (none, none, none)) ∧
    (sys2.cops ≠ [] → ∀ r, sys2.find_nearest_cop t2 tc2 = Except.ok r →
      r.2.1 ≠ none) := by
  constructor
  · intro he
    unfold PoliceDispatchSystem.find_nearest_cop
    rw [if_pos he]
  · intro hne r hr
    unfold PoliceDispatchSystem.find_nearest_cop at hr
    rw [if_neg hne] at hr
    cases hfa : findAux sys2.graph t2 tc2 sys2.cops (none, ⊤, none) with
    | ok acc =>
        obtain ⟨n, s, b⟩ := acc
        rw [hfa] at hr
        have hres : (n, some s, b) = r := Except.ok.inj hr
        rw [← hres]
        simp
    | error e =>
        rw [hfa] at hr
        cases hr

/-- Witness for C8: the empty directory over the star graph yields the
sentinel triple, and the nonempty directory over the disconnected graph
yields a numeric second component. -/
theorem find_nearest_cop_empty_witness :
    ((⟨exStar, []⟩ : PoliceDispatchSystem).cops = [] ∧ exSysStuck.cops ≠ []) ∧
    ((⟨exStar, []⟩ : PoliceDispatchSystem).find_nearest_cop 3 "normal" =
      Except.ok (none, none, none)) ∧
    (∀ r, exSysStuck.find_nearest_cop 1 "normal" = Except.ok r → r.2.1 ≠ none) := by
  have h := find_nearest_cop_empty ⟨exStar, []⟩ exSysStuck 3 1 "normal" "normal"
  exact ⟨⟨by with_unfolding_all decide, by with_unfolding_all decide⟩,
    h.1 (by with_unfolding_all decide), h.2 (by with_unfolding_all decide)⟩

/-- C10: the three query operations, dijkstra, get_path_description and
find_nearest_cop, leave all program state unchanged regardless of their
outcome: the state value each state-threaded form hands back is exactly
the receiver it was called on, covering the vertex dict, every vertex
position and adjacency, every weight table and the cop directory. -/
theorem queries_pure (g : Graph) (a b : ℕ) (p : List ℕ) (tc : String)
    (sys : PoliceDispatchSystem) (t : ℕ) (tc2 : String) :
    (g.dijkstraS a b tc).2 = g ∧
    (g.get_path_descriptionS p tc).2 = g ∧
    (sys.find_nearest_copS t tc2).2 = sys :=
  ⟨rfl, rfl, rfl⟩

theorem walkAux_agree {visA : List ℕ} {predA predB : ℕ → Option ℕ}
    (hagree : ∀ x ∈ visA, predB x = predA x)
    (hPV : ∀ v u, predA v = some u → u ∈ visA) :
    ∀ (f : ℕ) (v : ℕ), v ∈ visA → walkAux predB f v = walkAux predA f v := by
  intro f
  induction f with
  | zero => intro v _; rfl
  | succ f ih =>
      intro v hv
      show v :: _ = v :: _
      rw [hagree v hv]
      cases hp : predA v with
      | none => rfl
      | some u =>
          dsimp only
          rw [ih u (hPV v u hp)]

theorem relax_predVis {g : Graph} (tc : String) {u : ℕ} {d : ℚ} {st : DState}
    (hu : u ∈ st.visited)
    (hPV : ∀ v w, st.pred v = some w → w ∈ st.visited) :
    ∀ v w, (relaxList tc u d (adjList g u) st).pred v = some w →
      w ∈ (relaxList tc u d (adjList g u) st).visited := by
  intro v w hw
  rw [relax_visited]
  rcases relax_pred_cases tc u d (adjList g u) st v with h | ⟨h, -⟩
  · rw [h] at hw
    exact hPV v w hw
  · rw [h] at hw
    obtain rfl := Option.some.inj hw
    exact hu

theorem loopF_frozen {g : Graph} (tc : String) {endId len : ℕ} :
    ∀ (f : ℕ) (st : DState), (∀ v u, st.pred v = some u → u ∈ st.visited) →
      endId ∈ st.visited →
      extractAt len endId (loopF g tc f st) = extractAt len endId st := by
  intro f
  induction f with
  | zero => intro st _ _; rfl
  | succ f ih =>
      intro st hPV hend
      rw [loopF_succ]
      cases hpop : popMin st.pq with
      | none => rfl
      | some pr =>
          obtain ⟨⟨d, u⟩, rest⟩ := pr
          dsimp only
          by_cases hu : u ∈ st.visited
          · rw [if_pos hu]
            exact ih { st with pq := rest } hPV hend
          · rw [if_neg hu]
            set st1 : DState := { st with pq := rest, visited := u :: st.visited }
              with hst1
            have hPV1 : ∀ v w, st1.pred v = some w → w ∈ st1.visited :=
              fun v w hw => List.mem_cons_of_mem _ (hPV v w hw)
            have hu1 : u ∈ st1.visited := List.mem_cons_self u st.visited
            have hPV2 := relax_predVis (g := g) (d := d) tc hu1 hPV1
            have hvis2 := relax_visited tc u d (adjList g u) st1
            have hend2 : endId ∈ (relaxList tc u d (adjList g u) st1).visited := by
              rw [hvis2]
              exact List.mem_cons_of_mem _ hend
            rw [ih _ hPV2 hend2]
            have hfro := relax_frozen tc u d (adjList g u) st1
            unfold extractAt
            have hd : (relaxList tc u d (adjList g u) st1).dist endId =
                st.dist endId :=
              (hfro endId (List.mem_cons_of_mem _ hend)).1
            have hwalk : walkAux (relaxList tc u d (adjList g u) st1).pred len endId =
                walkAux st.pred len endId :=
              walkAux_agree (fun x hx => (hfro x hx).2) hPV1 len endId
                (List.mem_cons_of_mem _ hend)
            rw [hd, hwalk]

theorem loopB_loopF_eq {g : Graph} (tc : String) (endId len : ℕ) :
    ∀ (fB fF : ℕ) (st : DState), measureOf g st ≤ fB → measureOf g st ≤ fF →
      (∀ v u, st.pred v = some u → u ∈ st.visited) → endId ∉ st.visited →
      extractAt len endId (loopB g tc endId fB st) =
        extractAt len endId (loopF g tc fF st) := by
  intro fB
  induction fB with
  | zero =>
      intro fF st hmB _ _ _
      have hpq : st.pq = [] := by
        unfold measureOf at hmB
        rw [← List.length_eq_zero]
        omega
      cases fF with
      | zero => rfl
      | succ f =>
          rw [loopF_succ]
          have hpop : popMin st.pq = none := by
            rw [hpq]
            rfl
          rw [hpop]
          rfl
  | succ fB ih =>
      intro fF st hmB hmF hPV hend
      rw [loopB_succ]
      cases hpop : popMin st.pq with
      | none =>
          cases fF with
          | zero => rfl
          | succ f =>
              rw [loopF_succ, hpop]
      | some pr =>
          obtain ⟨⟨d, u⟩, rest⟩ := pr
          have hpqne : st.pq.length ≠ 0 := by
            intro h
            rw [List.length_eq_zero.mp h] at hpop
            simp [popMin] at hpop
          cases fF with
          | zero =>
              exfalso
              unfold measureOf at hmF
              omega
          | succ fF2 =>
              rw [loopF_succ, hpop]
              dsimp only
              have hmd := measure_drop (g := g) hpop
              by_cases hu : u ∈ st.visited
              · have hne : u ≠ endId := fun h => hend (h ▸ hu)
                rw [if_neg hne, if_pos hu, if_pos hu]
                exact ih fF2 { st with pq := rest } (by omega) (by omega) hPV hend
              · set st1 : DState := { st with pq := rest, visited := u :: st.visited }
                  with hst1
                have hPV1 : ∀ v w, st1.pred v = some w → w ∈ st1.visited :=
                  fun v w hw => List.mem_cons_of_mem _ (hPV v w hw)
                have hu1 : u ∈ st1.visited := List.mem_cons_self u st.visited
                have hPV2 := relax_predVis (g := g) (d := d) tc hu1 hPV1
                have hvis2 := relax_visited tc u d (adjList g u) st1
                have hms : measureOf g (relaxList tc u d (adjList g u) st1) <
                    measureOf g st := measure_step (g := g) tc hpop hu
                by_cases hendu : u = endId
                · subst hendu
                  rw [if_pos rfl, if_neg hu]
                  have hend2 : u ∈ (relaxList tc u d (adjList g u) st1).visited := by
                    rw [hvis2]
                    exact List.mem_cons_self u st.visited
                  rw [loopF_frozen tc fF2 _ hPV2 hend2]
                  have hfro := relax_frozen tc u d (adjList g u) st1
                  unfold extractAt
                  have hd : (relaxList tc u d (adjList g u) st1).dist u =
                      st.dist u := (hfro u hu1).1
                  have hwalk : walkAux (relaxList tc u d (adjList g u) st1).pred len u =
                      walkAux st.pred len u :=
                    walkAux_agree (fun x hx => (hfro x hx).2) hPV1 len u hu1
                  rw [hd, hwalk]
                · rw [if_neg hendu, if_neg hu, if_neg hu]
                  have hend2 : endId ∉ (relaxList tc u d (adjList g u) st1).visited := by
                    rw [hvis2]
                    intro hmem
                    rcases List.mem_cons.mp hmem with h1 | h1
                    · exact hendu h1.symm
                    · exact hend h1
                  exact ih fF2 (relaxList tc u d (adjList g u) st1)
                    (by omega) (by omega) hPV2 hend2

/-- C9: the dijkstra loop that breaks as soon as the target is popped
returns exactly the same (total cost, path) result as the spec variant
that keeps running until the frontier empties, on every graph, every
vertex pair and every condition; early termination is a pure
optimization. -/
theorem dijkstra_eq_dijkstraFull (g : Graph) (a b : ℕ) (tc : String) :
    g.dijkstra a b tc = g.dijkstraFull a b tc := by
  unfold Graph.dijkstra Graph.dijkstraFull
  by_cases h : (containsKey g.vertices a = true ∧ containsKey g.vertices b = true)
  · rw [if_pos h, if_pos h]
    have hPV : ∀ v u, (initState a).pred v = some u → u ∈ (initState a).visited := by
      intro v u hv
      simp [initState] at hv
    have heq := loopB_loopF_eq (g := g) tc b g.vertices.length
      (loopFuel g) (loopFuel g) (initState a) (measure_init g a) (measure_init g a)
      hPV (List.not_mem_nil b)
    exact congrArg Except.ok heq
  · rw [if_neg h, if_neg h]

theorem dijkstra_ok_pair {g : Graph} {tc : String} {crime loc : ℕ}
    (h : ∃ res, g.dijkstra loc crime tc = Except.ok res) :
    g.dijkstra loc crime tc =
      Except.ok (dijkCost g tc crime loc, dijkPath g tc crime loc) := by
  obtain ⟨⟨t, p⟩, hres⟩ := h
  unfold dijkCost dijkPath
  rw [hres]

theorem findAux_cons (g : Graph) (crime : ℕ) (tc : String) (c0 : String)
    (loc0 : ℕ) (l' : List (String × ℕ)) (n : Option String) (s : WithTop ℚ)
    (b : Option (List ℕ)) :
    findAux g crime tc ((c0, loc0) :: l') (n, s, b) =
      match g.dijkstra loc0 crime tc with
      | Except.error e => Except.error e
      | Except.ok (time, path) =>
          if time < s then findAux g crime tc l' (some c0, time, some path)
          else findAux g crime tc l' (n, s, b) := rfl

theorem findAux_spec {g : Graph} (tc : String) (crime : ℕ) :
    ∀ (l : List (String × ℕ)) (n : Option String) (s : WithTop ℚ)
      (b : Option (List ℕ)),
      (∀ q ∈ l, ∃ res, g.dijkstra q.2 crime tc = Except.ok res) →
      ((∀ q ∈ l, ¬ dijkCost g tc crime q.2 < s) →
        findAux g crime tc l (n, s, b) = Except.ok (n, s, b)) ∧
      ((∃ q ∈ l, dijkCost g tc crime q.2 < s) →
        ∃ l1 c loc l2, l = l1 ++ (c, loc) :: l2 ∧
          findAux g crime tc l (n, s, b) = Except.ok
            (some c, dijkCost g tc crime loc, some (dijkPath g tc crime loc)) ∧
          dijkCost g tc crime loc < s ∧
          (∀ q ∈ l, dijkCost g tc crime loc ≤ dijkCost g tc crime q.2) ∧
          (∀ q ∈ l1, dijkCost g tc crime loc < dijkCost g tc crime q.2)) := by
  intro l
  induction l with
  | nil =>
      intro n s b _
      refine ⟨fun _ => rfl, ?_⟩
      rintro ⟨q, hq, -⟩
      simp at hq
  | cons hd l' ih =>
      intro n s b hok
      obtain ⟨c0, loc0⟩ := hd
      have hd0 : g.dijkstra loc0 crime tc =
          Except.ok (dijkCost g tc crime loc0, dijkPath g tc crime loc0) :=
        dijkstra_ok_pair (hok (c0, loc0) (List.mem_cons_self _ _))
      have hok' : ∀ q ∈ l', ∃ res, g.dijkstra q.2 crime tc = Except.ok res :=
        fun q hq => hok q (List.mem_cons_of_mem _ hq)
      constructor
      · intro hnone
        rw [findAux_cons, hd0]
        dsimp only
        rw [if_neg (hnone (c0, loc0) (List.mem_cons_self _ _))]
        exact (ih n s b hok').1
          (fun q hq => hnone q (List.mem_cons_of_mem _ hq))
      · intro hsome
        rw [findAux_cons, hd0]
        dsimp only
        by_cases ht : dijkCost g tc crime loc0 < s
        · rw [if_pos ht]
          by_cases h2 : ∃ q ∈ l', dijkCost g tc crime q.2 < dijkCost g tc crime loc0
          · obtain ⟨l1, c, loc, l2, hdec, hres, hlt, hall, hstrict⟩ :=
              (ih (some c0) (dijkCost g tc crime loc0)
                (some (dijkPath g tc crime loc0)) hok').2 h2
            refine ⟨(c0, loc0) :: l1, c, loc, l2, by rw [hdec]; rfl, hres,
              lt_trans hlt ht, ?_, ?_⟩
            · intro q hq
              rcases List.mem_cons.mp hq with h3 | h3
              · rw [h3]
                exact le_of_lt hlt
              · exact hall q h3
            · intro q hq
              rcases List.mem_cons.mp hq with h3 | h3
              · rw [h3]
                exact hlt
              · exact hstrict q h3
          · push_neg at h2
            have hres := (ih (some c0) (dijkCost g tc crime loc0)
              (some (dijkPath g tc crime loc0)) hok').1
              (fun q hq => not_lt.mpr (h2 q hq))
            refine ⟨[], c0, loc0, l', rfl, hres, ht, ?_, ?_⟩
            · intro q hq
              rcases List.mem_cons.mp hq with h3 | h3
              · rw [h3]
              · exact h2 q h3
            · intro q hq
              simp at hq
        · rw [if_neg ht]
          have h3 : ∃ q ∈ l', dijkCost g tc crime q.2 < s := by
            obtain ⟨q, hq, hqlt⟩ := hsome
            rcases List.mem_cons.mp hq with h4 | h4
            · exfalso
              rw [h4] at hqlt
              exact ht hqlt
            · exact ⟨q, h4, hqlt⟩
          obtain ⟨l1, c, loc, l2, hdec, hres, hlt, hall, hstrict⟩ :=
            (ih n s b hok').2 h3
          refine ⟨(c0, loc0) :: l1, c, loc, l2, by rw [hdec]; rfl, hres, hlt, ?_, ?_⟩
          · intro q hq
            rcases List.mem_cons.mp hq with h4 | h4
            · rw [h4]
              exact le_of_lt (lt_of_lt_of_le hlt (not_lt.mp ht))
            · exact hall q h4
          · intro q hq
            rcases List.mem_cons.mp hq with h4 | h4
            · rw [h4]
              exact lt_of_lt_of_le hlt (not_lt.mp ht)
            · exact hstrict q h4

/-- C7 counterexample: a non-empty dispatch directory (one cop at vertex 0)
and an existing target vertex 1 unreachable from the cop; find_nearest_cop
returns (None, inf, None) rather than a resource of minimal cost, because
the strict less-than update never fires against the initial infinity, so
the claim fails without a reachability assumption. -/
theorem find_nearest_cop_counterexample :
    exSysStuck.cops ≠ [] ∧
    containsKey exSysStuck.graph.vertices 1 = true ∧
    exSysStuck.find_nearest_cop 1 "normal" =
      Except.ok (none, some (⊤ : WithTop ℚ), none) := by
  with_unfolding_all decide

/-- C7 (corrected): for every non-empty dispatch directory over a
well-formed graph in which the target vertex and every cop location
exist and at least one cop has finite shortest-path cost to the target,
find_nearest_cop returns the first cop attaining the minimal cost in
iteration (insertion) order — the directory splits as l1 before it,
every l1 cost strictly larger, every cost in the directory at least
the returned one — together with that cop's dijkstra cost and path,
and the returned path is a valid path from the cop to the target whose
recomputed sum of per-condition edge costs equals the returned cost.
The reachability hypothesis is needed: with every cost infinite the
call returns (None, inf, None) and no resource (see the
counterexample). -/
theorem find_nearest_cop_minimal (sys : PoliceDispatchSystem) (crime : ℕ)
    (tc : String) (hne : sys.cops ≠ [])
    (hwf : WFgraph sys.graph)
    (hcrime : containsKey sys.graph.vertices crime = true)
    (hlocs : ∀ q ∈ sys.cops, containsKey sys.graph.vertices q.2 = true)
    (hreach : ∃ q ∈ sys.cops, dijkCost sys.graph tc crime q.2 ≠ ⊤) :
    ∃ l1 c loc l2, sys.cops = l1 ++ (c, loc) :: l2 ∧
      sys.find_nearest_cop crime tc = Except.ok
        (some c, some (dijkCost sys.graph tc crime loc),
          some (dijkPath sys.graph tc crime loc)) ∧
      (∀ q ∈ sys.cops,
        dijkCost sys.graph tc crime loc ≤ dijkCost sys.graph tc crime q.2) ∧
      (∀ q ∈ l1,
        dijkCost sys.graph tc crime loc < dijkCost sys.graph tc crime q.2) ∧
      Walks sys.graph loc (dijkPath sys.graph tc crime loc) crime ∧
      ((costList sys.graph tc (dijkPath sys.graph tc crime loc) : ℚ) :
        WithTop ℚ) = dijkCost sys.graph tc crime loc := by
  have hok : ∀ q ∈ sys.cops, ∃ res,
      sys.graph.dijkstra q.2 crime tc = Except.ok res :=
    fun q hq => ⟨_, dijkstra_eq tc (hlocs q hq) hcrime⟩
  have hex : ∃ q ∈ sys.cops, dijkCost sys.graph tc crime q.2 < ⊤ := by
    obtain ⟨q, hq, hqn⟩ := hreach
    exact ⟨q, hq, lt_top_iff_ne_top.mpr hqn⟩
  obtain ⟨l1, c, loc, l2, hdec, hres, hlt, hall, hstrict⟩ :=
    (findAux_spec tc crime sys.cops none ⊤ none hok).2 hex
  have hmem : (c, loc) ∈ sys.cops := by
    rw [hdec]
    exact List.mem_append_right _ (List.mem_cons_self _ _)
  have hfin : sys.find_nearest_cop crime tc = Except.ok
      (some c, some (dijkCost sys.graph tc crime loc),
        some (dijkPath sys.graph tc crime loc)) := by
    unfold PoliceDispatchSystem.find_nearest_cop
    rw [if_neg hne, hres]
  have hntop : dijkCost sys.graph tc crime loc ≠ ⊤ := by
    obtain ⟨q, hq, hqn⟩ := hreach
    intro h
    exact hqn (top_le_iff.mp (h ▸ hall q hq))
  obtain ⟨cc, path, heq, -, hgood⟩ :=
    dijkstra_ok tc hwf (hlocs (c, loc) hmem) hcrime
  have hpair := dijkstra_ok_pair (hok (c, loc) hmem)
  rw [heq] at hpair
  have hcp := Except.ok.inj hpair
  have hcc : cc = dijkCost sys.graph tc crime loc := congrArg Prod.fst hcp
  have hpp : path = dijkPath sys.graph tc crime loc := congrArg Prod.snd hcp
  rw [hcc, hpp] at hgood
  obtain ⟨hwalks, hcost⟩ := hgood hntop
  exact ⟨l1, c, loc, l2, hdec, hfin, hall, hstrict, hwalks, hcost⟩

/-- Witness for C7: the star directory with cops at costs 7, 3 and 9
from the target vertex 3; the theorem applies and R2, the unique and
therefore first minimum, is the returned resource. -/
theorem find_nearest_cop_minimal_witness :
    exSys.cops ≠ [] ∧
    (∃ l1 c loc l2, exSys.cops = l1 ++ (c, loc) :: l2 ∧
      exSys.find_nearest_cop 3 "normal" = Except.ok
        (some c, some (dijkCost exSys.graph ("normal") 3 loc),
          some (dijkPath exSys.graph ("normal") 3 loc)) ∧
      (∀ q ∈ exSys.cops, dijkCost exSys.graph ("normal") 3 loc ≤
        dijkCost exSys.graph ("normal") 3 q.2) ∧
      (∀ q ∈ l1, dijkCost exSys.graph ("normal") 3 loc <
        dijkCost exSys.graph ("normal") 3 q.2) ∧
      Walks exSys.graph loc (dijkPath exSys.graph ("normal") 3 loc) 3 ∧
      ((costList exSys.graph ("normal")
        (dijkPath exSys.graph ("normal") 3 loc) : ℚ) : WithTop ℚ) =
        dijkCost exSys.graph ("normal") 3 loc) :=
  ⟨by with_unfolding_all decide,
   find_nearest_cop_minimal exSys 3 "normal"
     (by with_unfolding_all decide)
     (by with_unfolding_all decide)
     (by with_unfolding_all decide)
     (by with_unfolding_all decide)
     (by with_unfolding_all decide)⟩

theorem tan_pi_div_eight : Real.tan (Real.pi / 8) = Real.sqrt 2 - 1 := by
  have h2 : (2 : ℝ) * (Real.pi / 8) = Real.pi / 4 := by ring
  have htm := Real.tan_two_mul (x := Real.pi / 8)
  rw [h2, Real.tan_pi_div_four] at htm
  set t := Real.tan (Real.pi / 8) with ht
  have htpos : 0 < t := by
    rw [ht]
    exact Real.tan_pos_of_pos_of_lt_pi_div_two (by positivity) (by linarith [Real.pi_pos])
  have hden : 1 - t ^ 2 ≠ 0 := by
    intro h0
    rw [h0, div_zero] at htm
    norm_num at htm
  have hquad : 1 - t ^ 2 = 2 * t := by
    have := (div_eq_iff hden).mp htm.symm
    linarith
  have hsq : (t + 1) ^ 2 = 2 := by nlinarith
  have hroot : Real.sqrt 2 = t + 1 := by
    rw [show (2 : ℝ) = (t + 1) ^ 2 from hsq.symm]
    exact Real.sqrt_sq (by linarith)
  linarith

theorem arctan_sqrt_two_sub_one : Real.arctan (Real.sqrt 2 - 1) = Real.pi / 8 := by
  rw [← tan_pi_div_eight]
  exact Real.arctan_tan (by linarith [Real.pi_pos]) (by linarith [Real.pi_pos])

theorem degrees_boundary : degrees (atan2 (Real.sqrt 2 - 1) 1) = 22.5 := by
  unfold atan2
  rw [if_pos (by norm_num : (0 : ℝ) < 1), div_one, arctan_sqrt_two_sub_one]
  unfold degrees
  field_simp
  ring

theorem degrees_a01 : degrees (atan2 0 1) = 0 := by
  unfold atan2
  rw [if_pos (by norm_num : (0 : ℝ) < 1), zero_div, Real.arctan_zero]
  unfold degrees
  simp

theorem degrees_a10 : degrees (atan2 1 0) = 90 := by
  unfold atan2
  rw [if_neg (by norm_num : ¬ (0 : ℝ) < 0), if_neg (by norm_num : ¬ (0 : ℝ) < 0),
    if_pos (by norm_num : (0 : ℝ) < 1)]
  unfold degrees
  field_simp
  ring

theorem degrees_a11 : degrees (atan2 (-1) (-1)) = -135 := by
  unfold atan2
  rw [if_neg (by norm_num : ¬ (0 : ℝ) < -1), if_pos (by norm_num : (-1 : ℝ) < 0),
    if_neg (by norm_num : ¬ (0 : ℝ) ≤ -1)]
  rw [show ((-1 : ℝ) / (-1 : ℝ)) = 1 by norm_num, Real.arctan_one]
  unfold degrees
  field_simp
  ring

theorem gd_10 : get_direction 1 0 = "east" := by
  unfold get_direction
  dsimp only
  rw [degrees_a01]
  norm_num

theorem gd_01 : get_direction 0 1 = "north" := by
  unfold get_direction
  dsimp only
  rw [degrees_a10]
  norm_num

theorem gd_mm : get_direction (-1) (-1) = "southwest" := by
  unfold get_direction
  dsimp only
  rw [degrees_a11]
  norm_num

theorem gd_boundary_code : get_direction 1 (Real.sqrt 2 - 1) = "east" := by
  unfold get_direction
  dsimp only
  rw [degrees_boundary]
  norm_num

theorem gd_boundary_spec :
    specSector (degrees (atan2 (Real.sqrt 2 - 1) 1)) = "northeast" := by
  unfold specSector
  rw [degrees_boundary]
  norm_num

/-- C6 counterexample: at the displacement (1, sqrt 2 - 1) the angle
atan2(dy, dx) is exactly 22.5 degrees (since tan(pi/8) = sqrt 2 - 1);
the code returns east because its east sector is closed at the plus
22.5 degree edge, while the claimed convention (sector closed at
midpoint minus 22.5, open at midpoint plus 22.5) puts 22.5 in the
northeast sector, so the two disagree at this boundary. -/
theorem get_direction_boundary_counterexample :
    get_direction 1 (Real.sqrt 2 - 1) = "east" ∧
    specSector (degrees (atan2 (Real.sqrt 2 - 1) 1)) = "northeast" ∧
    get_direction 1 (Real.sqrt 2 - 1) ≠
      specSector (degrees (atan2 (Real.sqrt 2 - 1) 1)) := by
  refine ⟨gd_boundary_code, gd_boundary_spec, ?_⟩
  rw [gd_boundary_code, gd_boundary_spec]
  decide

/-- C6 (corrected): writing a for the degree angle of atan2(dy, dx),
the direction returned by _get_direction is characterized sector by
sector: east on the doubly closed band from -22.5 to 22.5, then each
sector open at its midpoint minus 22.5 degree edge and closed at its
midpoint plus 22.5 degree edge (northeast on 22.5 exclusive to 67.5
inclusive, and so on), west on the wrap beyond 157.5 exclusive or up
to -157.5 inclusive, and southeast on the doubly open band from -67.5
to -22.5 — the opposite boundary convention to the one claimed, east
and southeast excepted.  The three concrete displacements of the claim
do hold: (1, 0) is east, (0, 1) is north and (-1, -1) is southwest. -/
theorem get_direction_sectors (dx dy a : ℝ) (h : degrees (atan2 dy dx) = a) :
    ((get_direction dx dy = "east" ↔ -22.5 ≤ a ∧ a ≤ 22.5) ∧
     (get_direction dx dy = "northeast" ↔ 22.5 < a ∧ a ≤ 67.5) ∧
     (get_direction dx dy = "north" ↔ 67.5 < a ∧ a ≤ 112.5) ∧
     (get_direction dx dy = "northwest" ↔ 112.5 < a ∧ a ≤ 157.5) ∧
     (get_direction dx dy = "west" ↔ 157.5 < a ∨ a ≤ -157.5) ∧
     (get_direction dx dy = "southwest" ↔ -157.5 < a ∧ a ≤ -112.5) ∧
     (get_direction dx dy = "south" ↔ -112.5 < a ∧ a ≤ -67.5) ∧
     (get_direction dx dy = "southeast" ↔ -67.5 < a ∧ a < -22.5)) ∧
    get_direction 1 0 = "east" ∧
    get_direction 0 1 = "north" ∧
    get_direction (-1) (-1) = "southwest" := by
  refine ⟨?_, gd_10, gd_01, gd_mm⟩
  unfold get_direction
  dsimp only
  rw [h]
  split_ifs with h1 h2 h3 h4 h5 h6 h7
  · refine ⟨iff_of_true rfl h1, ?_, ?_, ?_, ?_, ?_, ?_, ?_⟩
    · exact iff_of_false (by decide) (by rintro ⟨hx, -⟩; linarith [h1.2])
    · exact iff_of_false (by decide) (by rintro ⟨hx, -⟩; linarith [h1.2])
    · exact iff_of_false (by decide) (by rintro ⟨hx, -⟩; linarith [h1.2])
    · exact iff_of_false (by decide) (by rintro (hx | hx) <;> linarith [h1.1, h1.2])
    · exact iff_of_false (by decide) (by rintro ⟨-, hx⟩; linarith [h1.1])
    · exact iff_of_false (by decide) (by rintro ⟨-, hx⟩; linarith [h1.1])
    · exact iff_of_false (by decide) (by rintro ⟨-, hx⟩; linarith [h1.1])
  · refine ⟨?_, iff_of_true rfl h2, ?_, ?_, ?_, ?_, ?_, ?_⟩
    · exact iff_of_false (by decide) (by rintro ⟨-, hx⟩; linarith [h2.1])
    · exact iff_of_false (by decide) (by rintro ⟨hx, -⟩; linarith [h2.2])
    · exact iff_of_false (by decide) (by rintro ⟨hx, -⟩; linarith [h2.2])
    · exact iff_of_false (by decide) (by rintro (hx | hx) <;> linarith [h2.1, h2.2])
    · exact iff_of_false (by decide) (by rintro ⟨-, hx⟩; linarith [h2.1])
    · exact iff_of_false (by decide) (by rintro ⟨-, hx⟩; linarith [h2.1])
    · exact iff_of_false (by decide) (by rintro ⟨-, hx⟩; linarith [h2.1])
  · refine ⟨?_, ?_, iff_of_true rfl h3, ?_, ?_, ?_, ?_, ?_⟩
    · exact iff_of_false (by decide) (by rintro ⟨-, hx⟩; linarith [h3.1])
    · exact iff_of_false (by decide) (by rintro ⟨-, hx⟩; linarith [h3.1])
    · exact iff_of_false (by decide) (by rintro ⟨hx, -⟩; linarith [h3.2])
    · exact iff_of_false (by decide) (by rintro (hx | hx) <;> linarith [h3.1, h3.2])
    · exact iff_of_false (by decide) (by rintro ⟨-, hx⟩; linarith [h3.1])
    · exact iff_of_false (by decide) (by rintro ⟨-, hx⟩; linarith [h3.1])
    · exact iff_of_false (by decide) (by rintro ⟨-, hx⟩; linarith [h3.1])
  · refine ⟨?_, ?_, ?_, iff_of_true rfl h4, ?_, ?_, ?_, ?_⟩
    · exact iff_of_false (by decide) (by rintro ⟨-, hx⟩; linarith [h4.1])
    · exact iff_of_false (by decide) (by rintro ⟨-, hx⟩; linarith [h4.1])
    · exact iff_of_false (by decide) (by rintro ⟨-, hx⟩; linarith [h4.1])
    · exact iff_of_false (by decide) (by rintro (hx | hx) <;> linarith [h4.1, h4.2])
    · exact iff_of_false (by decide) (by rintro ⟨-, hx⟩; linarith [h4.1])
    · exact iff_of_false (by decide) (by rintro ⟨-, hx⟩; linarith [h4.1])
    · exact iff_of_false (by decide) (by rintro ⟨-, hx⟩; linarith [h4.1])
  · refine ⟨?_, ?_, ?_, ?_, iff_of_true rfl h5, ?_, ?_, ?_⟩
    · exact iff_of_false (by decide)
        (by rintro ⟨hx, hy⟩; rcases h5 with h0 | h0 <;> linarith)
    · exact iff_of_false (by decide)
        (by rintro ⟨hx, hy⟩; rcases h5 with h0 | h0 <;> linarith)
    · exact iff_of_false (by decide)
        (by rintro ⟨hx, hy⟩; rcases h5 with h0 | h0 <;> linarith)
    · exact iff_of_false (by decide)
        (by rintro ⟨hx, hy⟩; rcases h5 with h0 | h0 <;> linarith)
    · exact iff_of_false (by decide)
        (by rintro ⟨hx, hy⟩; rcases h5 with h0 | h0 <;> linarith)
    · exact iff_of_false (by decide)
        (by rintro ⟨hx, hy⟩; rcases h5 with h0 | h0 <;> linarith)
    · exact iff_of_false (by decide)
        (by rintro ⟨hx, hy⟩; rcases h5 with h0 | h0 <;> linarith)
  · refine ⟨?_, ?_, ?_, ?_, ?_, iff_of_true rfl h6, ?_, ?_⟩
    · exact iff_of_false (by decide) (by rintro ⟨hx, -⟩; linarith [h6.2])
    · exact iff_of_false (by decide) (by rintro ⟨hx, -⟩; linarith [h6.2])
    · exact iff_of_false (by decide) (by rintro ⟨hx, -⟩; linarith [h6.2])
    · exact iff_of_false (by decide) (by rintro ⟨hx, -⟩; linarith [h6.2])
    · exact iff_of_false (by decide) (by rintro (hx | hx) <;> linarith [h6.1, h6.2])
    · exact iff_of_false (by decide) (by rintro ⟨hx, -⟩; linarith [h6.2])
    · exact iff_of_false (by decide) (by rintro ⟨hx, -⟩; linarith [h6.2])
  · refine ⟨?_, ?_, ?_, ?_, ?_, ?_, iff_of_true rfl h7, ?_⟩
    · exact iff_of_false (by decide) (by rintro ⟨hx, -⟩; linarith [h7.2])
    · exact iff_of_false (by decide) (by rintro ⟨hx, -⟩; linarith [h7.2])
    · exact iff_of_false (by decide) (by rintro ⟨hx, -⟩; linarith [h7.2])
    · exact iff_of_false (by decide) (by rintro ⟨hx, -⟩; linarith [h7.2])
    · exact iff_of_false (by decide) (by rintro (hx | hx) <;> linarith [h7.1, h7.2])
    · exact iff_of_false (by decide) (by rintro ⟨-, hx⟩; linarith [h7.1])
    · exact iff_of_false (by decide) (by rintro ⟨hx, -⟩; linarith [h7.2])
  · push_neg at h5
    have hub : a < -22.5 := by
      by_contra hc
      push_neg at hc
      have e1 : 22.5 < a := by
        by_contra e0
        push_neg at e0
        exact h1 ⟨hc, e0⟩
      have e2 : 67.5 < a := by
        by_contra e0
        push_neg at e0
        exact h2 ⟨e1, e0⟩
      have e3 : 112.5 < a := by
        by_contra e0
        push_neg at e0
        exact h3 ⟨e2, e0⟩
      have e4 : 157.5 < a := by
        by_contra e0
        push_neg at e0
        exact h4 ⟨e3, e0⟩
      linarith [h5.1]
    have hlb : -67.5 < a := by
      have f1 : -112.5 < a := by
        by_contra f0
        push_neg at f0
        exact h6 ⟨h5.2, f0⟩
      by_contra f0
      push_neg at f0
      exact h7 ⟨f1, f0⟩
    refine ⟨?_, ?_, ?_, ?_, ?_, ?_, ?_, iff_of_true rfl ⟨hlb, hub⟩⟩
    · exact iff_of_false (by decide) (by rintro ⟨hx, -⟩; linarith)
    · exact iff_of_false (by decide) (by rintro ⟨hx, -⟩; linarith)
    · exact iff_of_false (by decide) (by rintro ⟨hx, -⟩; linarith)
    · exact iff_of_false (by decide) (by rintro ⟨hx, -⟩; linarith)
    · exact iff_of_false (by decide) (by rintro (hx | hx) <;> linarith)
    · exact iff_of_false (by decide) (by rintro ⟨-, hx⟩; linarith)
    · exact iff_of_false (by decide) (by rintro ⟨-, hx⟩; linarith)

/-- Witness for C6 at the displacement (1, 0), whose atan2 angle is 0
degrees: the east sector membership holds and the three concrete
directions evaluate as stated. -/
theorem get_direction_sectors_witness :
    degrees (atan2 0 1) = 0 ∧
    (((get_direction 1 0 = "east" ↔ -22.5 ≤ (0 : ℝ) ∧ (0 : ℝ) ≤ 22.5) ∧
      (get_direction 1 0 = "northeast" ↔ 22.5 < (0 : ℝ) ∧ (0 : ℝ) ≤ 67.5) ∧
      (get_direction 1 0 = "north" ↔ 67.5 < (0 : ℝ) ∧ (0 : ℝ) ≤ 112.5) ∧
      (get_direction 1 0 = "northwest" ↔ 112.5 < (0 : ℝ) ∧ (0 : ℝ) ≤ 157.5) ∧
      (get_direction 1 0 = "west" ↔ 157.5 < (0 : ℝ) ∨ (0 : ℝ) ≤ -157.5) ∧
      (get_direction 1 0 = "southwest" ↔ -157.5 < (0 : ℝ) ∧ (0 : ℝ) ≤ -112.5) ∧
      (get_direction 1 0 = "south" ↔ -112.5 < (0 : ℝ) ∧ (0 : ℝ) ≤ -67.5) ∧
      (get_direction 1 0 = "southeast" ↔ -67.5 < (0 : ℝ) ∧ (0 : ℝ) < -22.5)) ∧
     get_direction 1 0 = "east" ∧
     get_direction 0 1 = "north" ∧
     get_direction (-1) (-1) = "southwest") :=
  ⟨degrees_a01, get_direction_sectors 1 0 0 degrees_a01⟩

end PoliceRoute
